import Mathlib

/-!
Verification of the ultra-utils utility library against its specification.

The JavaScript sources are shallowly embedded in Lean:
- JS strings are sequences of UTF-16 code units; where only character
  identity matters they are modelled as List Char, where arithmetic on
  code units matters (xorCipher) as List Nat with explicit reduction
  modulo 2 ^ 16.
- JS numbers are modelled as exact rationals; the concrete claims below
  only exercise values on which double arithmetic is exact.
- Fallible platform primitives (URL parsing, file system calls) are
  modelled as parameters returning Except, and the library wrappers
  translate exceptions into sentinel values exactly as the source does.
-/

set_option maxRecDepth 4096

/-- JS strings viewed as lists of characters. -/
abbrev JStr := List Char

/-! ### C10: xorCipher (src/unnamed/part_000, lines 131-137)

xorCipher iterates over the code units of the text, XOR-ing each with the
code unit of the key at position i % key.length, and rebuilds a string
with String.fromCharCode, which truncates its argument modulo 2 ^ 16.
Code units are modelled as naturals; a JS string has all units < 2 ^ 16. -/

/-- Loop of xorCipher: i is the current index into the text. -/
def xorCipherGo (key : List Nat) : Nat → List Nat → List Nat
  | _, [] => []
  | i, c :: cs =>
      ((c ^^^ key.getD (i % key.length) 0) % 65536) :: xorCipherGo key (i + 1) cs

/-- Model of xorCipher(text, key) from the crypto utilities. -/
def xorCipher (text key : List Nat) : List Nat := xorCipherGo key 0 text

/-! ### C7: unique (src/src/array.js, lines 11-13)

unique(arr) is spread of new Set(arr): the Set iterates in insertion
order and keeps the first occurrence of each element. -/

/-- Insertion-order accumulation of a JS Set built from a list. -/
def uniqueAux {α : Type} [DecidableEq α] (acc : List α) : List α → List α
  | [] => acc
  | x :: xs => uniqueAux (if x ∈ acc then acc else acc ++ [x]) xs

/-- Model of unique(arr) = spread of new Set(arr). -/
def unique {α : Type} [DecidableEq α] (arr : List α) : List α := uniqueAux [] arr

/-! ### C6: sentinel returns (src/src/string.js parseUrl; src/src/object.cjs
fs helpers readFile and writeFile)

The underlying platform operations (the URL constructor, readFileSync,
writeFileSync) may throw; they are modelled as parameters returning
Except. The wrappers catch every exception and return a sentinel. -/

/-- Record of URL components returned by parseUrl. -/
structure UrlParts where
  protocol : JStr
  hostname : JStr
  port : JStr
  pathname : JStr
  search : JStr
  hash : JStr
  origin : JStr
  host : JStr
deriving DecidableEq

/-- Model of parseUrl(url): new URL(url) is the platform primitive urlImpl;
on success the eight components are copied into a fresh record, on any
exception the catch block returns null (modelled as none). -/
def parseUrl (urlImpl : JStr → Except JStr UrlParts) (url : JStr) :
    Option UrlParts :=
  match urlImpl url with
  | .ok parsed =>
      some { protocol := parsed.protocol, hostname := parsed.hostname
             port := parsed.port, pathname := parsed.pathname
             search := parsed.search, hash := parsed.hash
             origin := parsed.origin, host := parsed.host }
  | .error _ => none

/-- Model of readFile(filePath, encoding): readFileSync is the platform
primitive readImpl; any exception is caught and null (none) returned. -/
def readFile (readImpl : JStr → JStr → Except JStr JStr)
    (filePath encoding : JStr) : Option JStr :=
  match readImpl filePath encoding with
  | .ok content => some content
  | .error _ => none

/-- Model of writeFile(filePath, content, encoding): writeFileSync is the
platform primitive writeImpl; success returns true, any exception is
caught and false returned. -/
def writeFile (writeImpl : JStr → JStr → JStr → Except JStr Unit)
    (filePath content encoding : JStr) : Bool :=
  match writeImpl filePath content encoding with
  | .ok _ => true
  | .error _ => false

/-! ### C4: levenshteinDistance and similarity (src/src/string.cjs,
lines 351-393)

The source fills a (str2.length + 1) x (str1.length + 1) matrix:
matrix[i][0] = i, matrix[0][j] = j, and for i, j >= 1 the cell compares
str2.charAt(i-1) with str1.charAt(j-1), taking the diagonal on a match
and otherwise 1 + min of diagonal, left and upper cells.  The loops fill
the matrix in increasing i and j, so each cell equals the recurrence
below; jsLevRow computes row i + 1 from row i (passed as prevRow). -/

/-- Row i + 1 of the levenshteinDistance matrix as a function of column
j, given row i.  Cells are only read at j <= str1.length, matching the
loop bounds; the charAt default is irrelevant there. -/
def jsLevRow (str1 str2 : List Char) (prevRow : Nat → Nat) (i : Nat) :
    Nat → Nat
  | 0 => i + 1
  | j + 1 =>
      if str2.getD i ' ' = str1.getD j ' ' then prevRow j
      else
        min (min (prevRow j + 1) (jsLevRow str1 str2 prevRow i j + 1))
          (prevRow (j + 1) + 1)

/-- The full matrix: jsLevMat str1 str2 i j is matrix[i][j]. -/
def jsLevMat (str1 str2 : List Char) : Nat → Nat → Nat
  | 0 => fun j => j
  | i + 1 => jsLevRow str1 str2 (jsLevMat str1 str2 i) i

/-- Model of levenshteinDistance(str1, str2): the bottom-right matrix
cell. -/
def levenshteinDistance (str1 str2 : List Char) : Nat :=
  jsLevMat str1 str2 str2.length str1.length

/-- The standard unit-cost edit distance (insertions, deletions,
substitutions), written from the specification as the textbook recursion
on the fronts of the two strings. -/
def editDistance : List Char → List Char → Nat
  | [], ys => ys.length
  | xs, [] => xs.length
  | x :: xs, y :: ys =>
      if x = y then editDistance xs ys
      else
        min (min (editDistance xs ys) (editDistance (x :: xs) ys))
          (editDistance xs (y :: ys)) + 1
termination_by xs ys => xs.length + ys.length
decreasing_by all_goals simp_wf <;> omega

/-- Model of similarity(str1, str2): picks the longer and shorter string,
returns 1.0 when the longer is empty, otherwise
(longer.length - distance) / longer.length.  JS numbers are modelled as
exact rationals. -/
def similarity (str1 str2 : List Char) : ℚ :=
  let longer := if str1.length > str2.length then str1 else str2
  let shorter := if str1.length > str2.length then str2 else str1
  if longer.length = 0 then 1
  else ((longer.length : ℚ) - (levenshteinDistance longer shorter : ℚ)) /
    (longer.length : ℚ)

/-! ### C5: slugify (src/src/string.cjs lines 11-21, src/src/string.js
lines 10-20)

slugify lowercases, trims, replaces whitespace runs with a hyphen,
removes every character outside the word class and hyphen, collapses
hyphen runs and strips leading and trailing hyphens.  Characters are
modelled one-for-one; toLowerCase is modelled on the ASCII range (every
character outside the regex word class is removed by the following
replace, so the result only contains ASCII word characters and hyphens
either way). -/

/-- The regex whitespace class (ASCII part), as used by trim and the s
class: space, tab, line feed, vertical tab, form feed, carriage return. -/
def isJsWs (c : Char) : Bool :=
  c == ' ' || c == Char.ofNat 9 || c == Char.ofNat 10 ||
    c == Char.ofNat 11 || c == Char.ofNat 12 || c == Char.ofNat 13

/-- The regex word class w = [A-Za-z0-9 underscore]. -/
def isWordChar (c : Char) : Bool :=
  decide (('a' ≤ c ∧ c ≤ 'z') ∨ ('A' ≤ c ∧ c ≤ 'Z') ∨
    ('0' ≤ c ∧ c ≤ '9') ∨ c = '_')

/-- ASCII model of String.prototype.toLowerCase on one character. -/
def jsToLower (c : Char) : Char :=
  if 'A' ≤ c ∧ c ≤ 'Z' then Char.ofNat (c.toNat + 32) else c

/-- Model of String.prototype.trim: strip whitespace at both ends. -/
def jsTrim (s : JStr) : JStr :=
  ((s.dropWhile isJsWs).reverse.dropWhile isJsWs).reverse

/-- Replacement of every maximal whitespace run by a single hyphen
(the replace of s+ with hyphen); the flag records whether the previous
character was part of a run already replaced. -/
def wsRunsGo : Bool → JStr → JStr
  | _, [] => []
  | inRun, c :: cs =>
      if isJsWs c then
        if inRun then wsRunsGo true cs else '-' :: wsRunsGo true cs
      else c :: wsRunsGo false cs

/-- Replace of s+ by hyphen over the whole string. -/
def replaceWsRuns (s : JStr) : JStr := wsRunsGo false s

/-- Characters kept by the replace of [^w-]+ with the empty string. -/
def keepWordOrHyphen (c : Char) : Bool := isWordChar c || c == '-'

/-- Collapse of hyphen runs: the replace of two-or-more hyphens by one,
which keeps the first hyphen of each run and drops the rest. -/
def collapseGo : Bool → JStr → JStr
  | _, [] => []
  | prevHyphen, c :: cs =>
      if c = '-' then
        if prevHyphen then collapseGo true cs
        else '-' :: collapseGo true cs
      else c :: collapseGo false cs

/-- Replace of two-or-more hyphens with a single hyphen. -/
def collapseHyphens (s : JStr) : JStr := collapseGo false s

/-- Model of slugify(text): toString (identity on strings), toLowerCase,
trim, whitespace runs to hyphen, removal of non-word non-hyphen
characters, hyphen-run collapse, strip of leading and of trailing
hyphens. -/
def slugify (text : JStr) : JStr :=
  let s1 := text.map jsToLower
  let s2 := jsTrim s1
  let s3 := replaceWsRuns s2
  let s4 := s3.filter keepWordOrHyphen
  let s5 := collapseHyphens s4
  let s6 := s5.dropWhile (fun c => c = '-')
  ((s6.reverse.dropWhile (fun c => c = '-')).reverse)

/-- Adjacent-pair property: no two consecutive hyphens. -/
def NoTwoHyphens (s : JStr) : Prop :=
  List.Chain' (fun a b => ¬(a = '-' ∧ b = '-')) s

/-! ### C9: bytes (src/src/number.cjs lines 31-41, identical in
src/unnamed/part_002 lines 30-40)

bytes(b, decimals) returns '0 Bytes' for 0, otherwise computes
i = Math.floor(Math.log(b) / Math.log(1024)), divides by 1024^i, renders
with toFixed, strips trailing zeros with parseFloat, and appends the
size unit.  JS numbers are modelled as exact rationals; the floor of the
log ratio is the floor of the exact base-1024 logarithm, which is
Int.log 1024 (double arithmetic is exact at the powers of two the
claims exercise). -/

/-- Decimal digits of a natural number, most significant first; the fuel
argument makes the recursion structural and any fuel at least n is
enough. -/
def natDigitsGo : Nat → Nat → JStr
  | 0, n => [Char.ofNat (48 + n % 10)]
  | fuel + 1, n =>
      if n < 10 then [Char.ofNat (48 + n)]
      else natDigitsGo fuel (n / 10) ++ [Char.ofNat (48 + n % 10)]

/-- Decimal string of a natural number (JS toString of an integer). -/
def natToStr (n : Nat) : JStr := natDigitsGo n n

/-- Decimal string of an integer. -/
def intToStr (i : ℤ) : JStr :=
  if i < 0 then '-' :: natToStr i.natAbs else natToStr i.natAbs

/-- Fractional digits of a rational in [0, 1), up to the given number of
digits (enough for every finite-decimal value reaching number-to-string
conversion in these claims). -/
def fracDigitsGo : Nat → ℚ → JStr
  | 0, _ => []
  | fuel + 1, q =>
      if q = 0 then []
      else
        Char.ofNat (48 + (⌊q * 10⌋).toNat % 10) ::
          fracDigitsGo fuel (q * 10 - ⌊q * 10⌋)

/-- JS number-to-string: integers print without a decimal point,
finite-decimal fractions print their digits. -/
def qToStr (q : ℚ) : JStr :=
  if q.den = 1 then intToStr q.num
  else
    (if q < 0 then ['-'] else []) ++ intToStr ⌊|q|⌋ ++
      '.' :: fracDigitsGo 20 (|q| - ⌊|q|⌋)

/-- Digits of n padded with leading zeros to the given width. -/
def padDigits (w : Nat) (n : Nat) : JStr :=
  List.replicate (w - (natToStr n).length) '0' ++ natToStr n

/-- Model of Number.prototype.toFixed(dm): the integer n closest to
q * 10^dm (ties towards the larger), rendered with exactly dm
fractional digits. -/
def toFixed (dm : Nat) (q : ℚ) : JStr :=
  let n : ℤ := ⌊q * 10 ^ dm + 1 / 2⌋
  if dm = 0 then intToStr n
  else
    (if n < 0 then ['-'] else []) ++
      natToStr (n.natAbs / 10 ^ dm) ++
      '.' :: padDigits dm (n.natAbs % 10 ^ dm)

/-- True for the characters 0 to 9. -/
def isDigitChar (c : Char) : Bool := decide ('0' ≤ c ∧ c ≤ '9')

/-- Value of a digit string read left to right. -/
def digitsVal (l : JStr) : Nat :=
  l.foldl (fun acc c => acc * 10 + (c.toNat - 48)) 0

/-- Unsigned part of parseFloat: leading digits, then an optional point
followed by digits; no digits at all is NaN (none). -/
def parseFloatCore (rest : JStr) : Option ℚ :=
  let intPart := rest.takeWhile isDigitChar
  let rest2 := rest.drop intPart.length
  let frac :=
    match rest2 with
    | '.' :: r => r.takeWhile isDigitChar
    | _ => []
  if intPart = [] ∧ frac = [] then none
  else some ((digitsVal intPart : ℚ) +
    (digitsVal frac : ℚ) / 10 ^ frac.length)

/-- Model of parseFloat on the plain decimal strings produced by
toFixed (parseFloat would also accept exponents and Infinity, which do
not occur here). none models NaN. -/
def parseFloatQ (s : JStr) : Option ℚ :=
  match s with
  | '-' :: r => (parseFloatCore r).map (fun q => -q)
  | '+' :: r => parseFloatCore r
  | r => parseFloatCore r

/-- The size unit table of bytes. -/
def bytesSizes : List JStr :=
  [['B', 'y', 't', 'e', 's'], ['K', 'B'], ['M', 'B'], ['G', 'B'],
    ['T', 'B'], ['P', 'B'], ['E', 'B'], ['Z', 'B'], ['Y', 'B']]

/-- Model of bytes(b, decimals); the default decimals is 2.  A negative
index or an index past the table would print undefined in JS; the
claims only exercise index 2. -/
def bytes (b : ℚ) (decimals : ℤ) : JStr :=
  if b = 0 then ['0', ' ', 'B', 'y', 't', 'e', 's']
  else
    let dm : Nat := if decimals < 0 then 0 else decimals.toNat
    let i : ℤ := Int.log 1024 b
    let v : ℚ := b / 1024 ^ i
    (match parseFloatQ (toFixed dm v) with
     | some q => qToStr q
     | none => ['N', 'a', 'N']) ++ ' ' :: bytesSizes.getD i.toNat []

/-! ### JS value model for the object utilities (C1, C2, C3)

Plain JS values as trees: null, booleans, numbers (exact rationals),
strings, arrays and plain objects.  Objects are ordered field lists
(JS insertion order for the string keys arising here); property access
is own-property lookup (prototype-chain effects, e.g. a literal
proto key, are outside the model).  Arrays are element lists; the only
array properties modelled are the canonical indices, which are the only
ones the flatten/unflatten and deepMerge claims exercise. -/

mutual
inductive JVal where
  | vNull : JVal
  | vBool (b : Bool) : JVal
  | vNum (q : ℚ) : JVal
  | vStr (s : JStr) : JVal
  | vArr (elems : JList) : JVal
  | vObj (fields : JFields) : JVal
inductive JList where
  | nil : JList
  | cons (v : JVal) (tail : JList) : JList
inductive JFields where
  | nil : JFields
  | cons (k : JStr) (v : JVal) (tail : JFields) : JFields
end

/-- JS truthiness (numbers are exact rationals, so the NaN case does not
arise). -/
def truthy : JVal → Bool
  | .vNull => false
  | .vBool b => b
  | .vNum q => decide (q ≠ 0)
  | .vStr s => decide (s ≠ [])
  | .vArr _ => true
  | .vObj _ => true

/-- typeof x is the string object (true for null, arrays and objects). -/
def isObjectTypeof : JVal → Bool
  | .vNull => true
  | .vArr _ => true
  | .vObj _ => true
  | _ => false

/-- Arrays and plain objects. -/
def isContainer : JVal → Bool
  | .vArr _ => true
  | .vObj _ => true
  | _ => false

/-- Own-property lookup on a field list. -/
def fieldsGet : JFields → JStr → Option JVal
  | .nil, _ => none
  | .cons k v t, key => if k = key then some v else fieldsGet t key

/-- Property assignment on a field list: an existing key keeps its
position and takes the new value, a new key is appended (JS insertion
order). -/
def fieldsSet : JFields → JStr → JVal → JFields
  | .nil, key, v => .cons key v .nil
  | .cons k w t, key, v =>
      if k = key then .cons k v t else .cons k w (fieldsSet t key v)

/-- Element lookup in an array. -/
def listGet : JList → Nat → Option JVal
  | .nil, _ => none
  | .cons v _, 0 => some v
  | .cons _ t, i + 1 => listGet t i

/-- Number of elements. -/
def listLen : JList → Nat
  | .nil => 0
  | .cons _ t => listLen t + 1

/-- Element assignment: update in range, append at the length (holes of
a sparse assignment beyond the length are modelled as null; the claims
never create them). -/
def listSet : JList → Nat → JVal → JList
  | .nil, 0, v => .cons v .nil
  | .nil, i + 1, v => .cons .vNull (listSet .nil i v)
  | .cons _ t, 0, v => .cons v t
  | .cons w t, i + 1, v => .cons w (listSet t i v)

/-- A canonical array index: a nonempty digit string without a leading
zero (except the string 0 itself). -/
def parseIndex (k : JStr) : Option Nat :=
  if k ≠ [] ∧ (∀ c ∈ k, isDigitChar c) ∧ (k = ['0'] ∨ k.head? ≠ some '0')
  then some (digitsVal k) else none

/-- Property read on a value: objects by key, arrays by canonical index
(other array properties do not occur in the claims and read as
undefined), primitives have no modelled properties. -/
def jGet : JVal → JStr → Option JVal
  | .vObj f, key => fieldsGet f key
  | .vArr a, key =>
      match parseIndex key with
      | some i => listGet a i
      | none => none
  | _, _ => none

/-- Property write on a container: objects by key, arrays by canonical
index (writes of non-index array properties do not occur in the claims
and are modelled as no-ops); writes on primitives are silent no-ops in
non-strict code. -/
def jSet : JVal → JStr → JVal → JVal
  | .vObj f, key, v => .vObj (fieldsSet f key v)
  | .vArr a, key, v =>
      match parseIndex key with
      | some i => .vArr (listSet a i v)
      | none => .vArr a
  | c, _, _ => c

/-! ### C1: flatten and unflatten (src/src/object.cjs lines 199-247)

flatten walks the value depth first; primitives and empty containers
are recorded under their dot-joined path, array elements under the path
extended with the decimal index, object fields under the path extended
with the key (no separator at the root).  unflatten iterates the flat
keys, first scaffolding containers along the split path (an array when
the following segment is numeric in the sense of JS Number coercion,
an object otherwise), then writing the value with the path setter set.
The separator parameter is a single character (the default is the dot);
set itself always splits on the dot after the key has its separator
replaced by itself when the separator is the default. -/

/-- Model of the isNaN(Number(key)) test (negated): true when JS Number
coercion of the string yields a number.  Whitespace-trimmed empty
strings coerce to 0; otherwise a signed decimal literal, Infinity, or an
unsigned hex, octal or binary literal. -/
def decimalBody (t : JStr) : Bool :=
  let intPart := t.takeWhile isDigitChar
  let r1 := t.drop intPart.length
  let fracPart :=
    match r1 with
    | '.' :: r => r.takeWhile isDigitChar
    | _ => []
  let r2 :=
    match r1 with
    | '.' :: r => r.drop fracPart.length
    | _ => r1
  let expOk :=
    match r2 with
    | [] => true
    | 'e' :: r =>
        (match r with
         | '-' :: d => d ≠ [] && d.all isDigitChar
         | '+' :: d => d ≠ [] && d.all isDigitChar
         | d => d ≠ [] && d.all isDigitChar)
    | 'E' :: r =>
        (match r with
         | '-' :: d => d ≠ [] && d.all isDigitChar
         | '+' :: d => d ≠ [] && d.all isDigitChar
         | d => d ≠ [] && d.all isDigitChar)
    | _ => false
  (intPart ≠ [] || fracPart ≠ []) && expOk

/-- Unsigned numeric body: Infinity or a decimal literal. -/
def unsignedNum (t : JStr) : Bool :=
  t = ['I', 'n', 'f', 'i', 'n', 'i', 't', 'y'] || decimalBody t

/-- True for a hex digit. -/
def isHexDigit (c : Char) : Bool :=
  isDigitChar c || decide (('a' ≤ c ∧ c ≤ 'f') ∨ ('A' ≤ c ∧ c ≤ 'F'))

/-- Unsigned non-decimal literal: 0x, 0o or 0b with digits. -/
def radixNum (t : JStr) : Bool :=
  match t with
  | '0' :: 'x' :: d => d ≠ [] && d.all isHexDigit
  | '0' :: 'X' :: d => d ≠ [] && d.all isHexDigit
  | '0' :: 'o' :: d => d ≠ [] && d.all (fun c => decide ('0' ≤ c ∧ c ≤ '7'))
  | '0' :: 'O' :: d => d ≠ [] && d.all (fun c => decide ('0' ≤ c ∧ c ≤ '7'))
  | '0' :: 'b' :: d => d ≠ [] && d.all (fun c => c == '0' || c == '1')
  | '0' :: 'B' :: d => d ≠ [] && d.all (fun c => c == '0' || c == '1')
  | _ => false

/-- Model of the numeric-string test used by unflatten. -/
def jsNumericStr (s : JStr) : Bool :=
  match ((s.dropWhile isJsWs).reverse.dropWhile isJsWs).reverse with
  | [] => true
  | c :: r =>
      if c = '-' then unsignedNum r
      else if c = '+' then unsignedNum r
      else unsignedNum (c :: r) || radixNum (c :: r)

mutual
/-- The flatten recursion: entries produced for the value at the given
joined path, in depth-first order. -/
def recurseVal (sep : Char) : JVal → JStr → List (JStr × JVal)
  | .vArr a, prop =>
      match a with
      | .nil => [(prop, .vArr .nil)]
      | .cons v t => recurseArr sep (.cons v t) prop 0
  | .vObj f, prop =>
      match f with
      | .nil => if prop ≠ [] then [(prop, .vObj .nil)] else []
      | .cons k v t => recurseObj sep (.cons k v t) prop
  | leaf, prop => [(prop, leaf)]
/-- Entries of the array elements from index i on. -/
def recurseArr (sep : Char) : JList → JStr → Nat → List (JStr × JVal)
  | .nil, _, _ => []
  | .cons v t, prop, i =>
      recurseVal sep v (prop ++ sep :: natToStr i) ++
        recurseArr sep t prop (i + 1)
/-- Entries of the object fields. -/
def recurseObj (sep : Char) : JFields → JStr → List (JStr × JVal)
  | .nil, _ => []
  | .cons k v t, prop =>
      recurseVal sep v (if prop ≠ [] then prop ++ sep :: k else k) ++
        recurseObj sep t prop
end

/-- Assignment into the flat result object (existing key overwritten in
place, new key appended). -/
def assocSet : List (JStr × JVal) → JStr → JVal → List (JStr × JVal)
  | [], key, v => [(key, v)]
  | (k, w) :: t, key, v =>
      if k = key then (k, v) :: t else (k, w) :: assocSet t key v

/-- Model of flatten(obj, separator): the flat result object as an
ordered key-value list. -/
def flatten (obj : JVal) (sep : Char) : List (JStr × JVal) :=
  (recurseVal sep obj []).foldl (fun res kv => assocSet res kv.1 kv.2) []

/-- Model of String.prototype.split at a one-character separator; the
result always has at least one (possibly empty) piece. -/
def splitOnChar (sep : Char) : JStr → List JStr
  | [] => [[]]
  | c :: cs =>
      match splitOnChar sep cs with
      | h :: t => if c = sep then [] :: h :: t else (c :: h) :: t
      | [] => [[]]

/-- The container created by the scaffolding reduce of unflatten for a
given remaining path: an array when the next segment is numeric, an
object otherwise (also for the final segment, where the lookahead is
undefined and isNaN(Number(undefined)) holds). -/
def segContainer : List JStr → JVal
  | [] => .vObj .nil
  | r :: _ => if jsNumericStr r then .vArr .nil else .vObj .nil

/-- The keys.reduce of unflatten: walks the path, descending through
truthy values and installing fresh containers over missing or falsy
ones.  Descending into a truthy primitive detaches the rest of the walk
in non-strict JS (assignments on primitives are silently lost), so the
structure is returned unchanged there. -/
def scaffold : JVal → List JStr → JVal
  | acc, [] => acc
  | acc, k :: rest =>
      match jGet acc k with
      | some v =>
          if truthy v then
            if isContainer v then jSet acc k (scaffold v rest)
            else acc
          else jSet acc k (scaffold (segContainer rest) rest)
      | none => jSet acc k (scaffold (segContainer rest) rest)

/-- Model of set(obj, path, value) on a split path (src/src/object.cjs
lines 79-93): walks all segments but the last, replacing a missing or
non-object intermediate with a fresh object; stepping into a null (of
typeof object) makes the following access throw, modelled as error.
The final assignment on a primitive target is a silent no-op in
non-strict code. -/
def pathSet : JVal → List JStr → JVal → Except Unit JVal
  | c, [], _ => .ok c
  | c, [k], v =>
      match c with
      | .vNull => .error ()
      | .vObj _ => .ok (jSet c k v)
      | .vArr _ => .ok (jSet c k v)
      | _ => .ok c
  | c, k :: rest, v =>
      match c with
      | .vObj _ =>
          (pathSet
            (match jGet c k with
             | some x => if isObjectTypeof x then x else .vObj .nil
             | none => .vObj .nil) rest v).map (fun r => jSet c k r)
      | .vArr _ =>
          (pathSet
            (match jGet c k with
             | some x => if isObjectTypeof x then x else .vObj .nil
             | none => .vObj .nil) rest v).map (fun r => jSet c k r)
      | _ => .error ()

/-- One iteration of the unflatten loop: scaffold along the key split at
the separator, then set at the key with separators replaced by dots,
split at dots (identical when the separator is the dot). -/
def insertEntry (sep : Char) (result : JVal) (kv : JStr × JVal) :
    Except Unit JVal :=
  pathSet (scaffold result (splitOnChar sep kv.1))
    (splitOnChar '.' ((kv.1).map (fun c => if c = '.' then sep else c)))
    kv.2

/-- Model of unflatten(obj, separator) over the flat entry list. -/
def unflatten (flat : List (JStr × JVal)) (sep : Char) : Except Unit JVal :=
  flat.foldlM (insertEntry sep) (.vObj .nil)

/-- Number of fields (Object.keys length). -/
def fieldsLen : JFields → Nat
  | .nil => 0
  | .cons _ _ t => fieldsLen t + 1

mutual
/-- Model of isEqual (src/src/object.cjs lines 297-319): strict equality
on primitives, null only equal to null, an array never deeply equal to a
non-array object, arrays compared by length and pointwise, objects by
key count, key inclusion and recursive value equality. -/
def isEqual : JVal → JVal → Bool
  | .vNull, .vNull => true
  | .vBool x, .vBool y => x == y
  | .vNum x, .vNum y => x == y
  | .vStr x, .vStr y => x == y
  | .vArr x, .vArr y => listEqual x y
  | .vObj x, .vObj y => fieldsLen x == fieldsLen y && fieldsSubEqual x y
  | _, _ => false
/-- Pointwise array comparison (same index keys, recursive values). -/
def listEqual : JList → JList → Bool
  | .nil, .nil => true
  | .cons v t, .cons w u => isEqual v w && listEqual t u
  | _, _ => false
/-- Every key of the first object is a key of the second with deeply
equal value. -/
def fieldsSubEqual : JFields → JFields → Bool
  | .nil, _ => true
  | .cons k v t, y =>
      (match fieldsGet y k with
       | some w => isEqual v w
       | none => false) && fieldsSubEqual t y
end

mutual
/-- The flatten round trip domain: every object key anywhere in the
value is non-numeric under JS Number coercion, does not contain the
separator, and object keys are distinct (as JS object keys are). -/
def goodVal (sep : Char) : JVal → Bool
  | .vArr a => goodList sep a
  | .vObj f => goodFields sep f
  | _ => true
/-- All array elements good. -/
def goodList (sep : Char) : JList → Bool
  | .nil => true
  | .cons v t => goodVal sep v && goodList sep t
/-- All keys non-numeric, separator-free and distinct; all values
good. -/
def goodFields (sep : Char) : JFields → Bool
  | .nil => true
  | .cons k v t =>
      !jsNumericStr k && !(k.contains sep) && !(fieldsGet t k).isSome &&
        goodVal sep v && goodFields sep t
end

/-- Concatenation of field lists (used to describe partially rebuilt
objects in the proofs). -/
def fieldsAppend : JFields → JFields → JFields
  | .nil, g => g
  | .cons k v t, g => .cons k v (fieldsAppend t g)

/-- Concatenation of element lists. -/
def listAppend : JList → JList → JList
  | .nil, g => g
  | .cons v t, g => .cons v (listAppend t g)

mutual
/-- Path segments of the entries of a value relative to its own
position, with the entry values, in flatten order (proof-side
characterization of the recurse walk). -/
def relEntries : JVal → List (List JStr × JVal)
  | .vArr .nil => [([], .vArr .nil)]
  | .vArr (.cons v t) => relArr (.cons v t) 0
  | .vObj .nil => [([], .vObj .nil)]
  | .vObj (.cons k v t) => relObj (.cons k v t)
  | leaf => [([], leaf)]
/-- Relative entries of array elements from index i. -/
def relArr : JList → Nat → List (List JStr × JVal)
  | .nil, _ => []
  | .cons v t, i =>
      (relEntries v).map (fun e => (natToStr i :: e.1, e.2)) ++
        relArr t (i + 1)
/-- Relative entries of object fields. -/
def relObj : JFields → List (List JStr × JVal)
  | .nil => []
  | .cons k v t =>
      (relEntries v).map (fun e => (k :: e.1, e.2)) ++ relObj t
end

/-- Segments joined with a leading separator before each piece. -/
def segsJoin (sep : Char) : List JStr → JStr
  | [] => []
  | s :: rest => sep :: (s ++ segsJoin sep rest)

/-- A nonempty segment path joined with separators between pieces. -/
def pathJoin (sep : Char) : List JStr → JStr
  | [] => []
  | s :: rest => s ++ segsJoin sep rest

/-- One unflatten insertion at an already split path (scaffold, then
set). -/
def insSegs (acc : JVal) (segs : List JStr) (v : JVal) :
    Except Unit JVal :=
  pathSet (scaffold acc segs) segs v

/-- Folding unflatten insertions over a list of split-path entries. -/
def insertAll (acc : JVal) (l : List (List JStr × JVal)) :
    Except Unit JVal :=
  l.foldlM (fun r e => insSegs r e.1 e.2) acc

/-! ### C2: deepMerge (src/src/object.cjs lines 11-30, identical in
src/src/object.js lines 10-29)

deepMerge(...objects) reduces the argument list into a fresh object.
For each own key of the current argument: if both the accumulated value
and the incoming value are arrays, the result is pVal.concat(...oVal)
(the spread makes concat splice array-valued elements of oVal one level
deep); if both are non-array objects they are merged recursively; any
other combination takes the incoming value.  The recursion of the
source terminates on the acyclic values modelled here; it is expressed
with an explicit depth budget, and any budget above the nesting depth
of the arguments computes the JS result. -/

/-- Left fold over a field list. -/
def fieldsFold {β : Type} (f : β → JStr → JVal → β) : β → JFields → β
  | acc, .nil => acc
  | acc, .cons k v t => fieldsFold f (f acc k v) t

/-- The own enumerable keys iterated by Object.keys, with their values:
the fields of an object, the indexed elements of an array (a primitive
has none; Object.keys would throw on null or undefined, which the
claims do not exercise). -/
def keyEntries : JVal → JFields :=
  fun v =>
    match v with
    | .vObj f => f
    | .vArr a => arrEntries a 0
    | _ => .nil
where
  arrEntries : JList → Nat → JFields
    | .nil, _ => .nil
    | .cons v t, i => .cons (natToStr i) v (arrEntries t (i + 1))

/-- pVal.concat(...oVal): elements of the left array, then the elements
of the right array with array-valued elements spliced one level. -/
def concatSpread : JList → JList → JList
  | p, o => listAppend p (spreadElems o)
where
  spreadElems : JList → JList
    | .nil => .nil
    | .cons (.vArr inner) t => listAppend inner (spreadElems t)
    | .cons v t => .cons v (spreadElems t)

/-- One key of the merge step: compare the accumulated value with the
incoming one and assign per the three rules (isObject excludes null,
arrays and primitives, so the object rule fires exactly for two plain
objects). -/
def mergeKeyN (merge2 : JVal → JVal → JVal) (prev : JVal) (k : JStr)
    (ov : JVal) : JVal :=
  match jGet prev k, ov with
  | some (.vArr p), .vArr o => jSet prev k (.vArr (concatSpread p o))
  | some (.vObj pf), .vObj og => jSet prev k (merge2 (.vObj pf) (.vObj og))
  | _, _ => jSet prev k ov

/-- One reduce step of deepMerge: fold the keys of the argument into the
accumulator. -/
def mergeStepN (merge2 : JVal → JVal → JVal) (prev obj : JVal) : JVal :=
  fieldsFold (fun acc k ov => mergeKeyN merge2 acc k ov) prev
    (keyEntries obj)

/-- The binary recursion deepMerge(pVal, oVal) with a depth budget. -/
def deepMergePairN : Nat → JVal → JVal → JVal
  | 0, _, _ => .vNull
  | fuel + 1, a, b =>
      mergeStepN (deepMergePairN fuel)
        (mergeStepN (deepMergePairN fuel) (.vObj .nil) a) b

/-- Model of deepMerge(...objects) with a depth budget for the nested
merges. -/
def deepMerge (fuel : Nat) (objects : List JVal) : JVal :=
  objects.foldl (mergeStepN (deepMergePairN fuel)) (.vObj .nil)

mutual
/-- Nesting depth of a value (containers count one level). -/
def depthVal : JVal → Nat
  | .vArr a => depthList a + 1
  | .vObj f => depthFields f + 1
  | _ => 0
/-- Depth of the deepest element. -/
def depthList : JList → Nat
  | .nil => 0
  | .cons v t => max (depthVal v) (depthList t)
/-- Depth of the deepest field value. -/
def depthFields : JFields → Nat
  | .nil => 0
  | .cons _ v t => max (depthVal v) (depthFields t)
end

/-- Distinct keys, as JS object keys always are. -/
def fieldsKeysNodup : JFields → Bool
  | .nil => true
  | .cons k _ t => !(fieldsGet t k).isSome && fieldsKeysNodup t

/-- The per-key merge rule of deepMerge as a function of the
accumulated value (if any) and the incoming value. -/
def mergeRule (merge2 : JVal → JVal → JVal) (pOpt : Option JVal)
    (ov : JVal) : JVal :=
  match pOpt, ov with
  | some (.vArr p), .vArr o => .vArr (concatSpread p o)
  | some (.vObj pf), .vObj og => merge2 (.vObj pf) (.vObj og)
  | _, _ => ov

/-! ### C3: the CLI dispatcher (src/bin/cli.js lines 187-269)

The script parses process.argv, dispatches on the first argument and
returns control to node, which then terminates the process normally:
no code path calls process.exit or sets process.exitCode, and
executeFunction catches every error thrown by the invoked function, so
the exit status is 0 on every run.  The model is parametrized over the
function registry (a lookup returning the behaviour of the named
function, error standing for a throw with the given message), the
category table (category key with its function-name list) and the
argument coercion heuristic (JSON, number or string, a platform
concern).  Output is modelled as a list of tagged lines carrying the
data relevant to the claims; decoration and colors are dropped. -/

/-- One line of CLI output. -/
inductive CliLine where
  | helpText
  | categoryHelp (cat : JStr)
  | listText
  | notFound (fn : JStr)
  | didYouMean
  | suggestion (fn : JStr)
  | listHint
  | resultHeader (fn : JStr)
  | resultVal (v : JVal)
  | execErrorHead (fn : JStr)
  | execErrorMsg (msg : JStr)
  | categoryHint (cat : JStr)

/-- The needle starts the haystack (helper for the includes model). -/
def startsWithStr : JStr → JStr → Bool
  | _, [] => true
  | [], _ :: _ => false
  | c :: cs, n :: ns => c == n && startsWithStr cs ns

/-- Model of String.prototype.includes: substring containment. -/
def strIncludes : JStr → JStr → Bool
  | [], needle => needle.isEmpty
  | c :: cs, needle => startsWithStr (c :: cs) needle || strIncludes cs needle

/-- Model of executeFunction: unknown names print the not-found
message, up to five suggestions when some function name contains or is
contained in the request (case-insensitively), and the list hint; known
names have their arguments coerced and are invoked, printing the result
on success and, on a throw, the error header, the thrown message and
the category hint when some category lists the function.  Every error
is caught here; nothing escapes and nothing changes the exit status. -/
def executeFunction (utils : JStr → Option (List JVal → Except JStr JVal))
    (categories : List (JStr × List JStr)) (parseArg : JStr → JVal)
    (functionName : JStr) (args : List JStr) : List CliLine :=
  match utils functionName with
  | none =>
      let allFunctions := categories.flatMap (fun c => c.2)
      let suggestions := allFunctions.filter (fun func =>
        strIncludes (func.map jsToLower) (functionName.map jsToLower) ||
        strIncludes (functionName.map jsToLower) (func.map jsToLower))
      CliLine.notFound functionName ::
        ((if suggestions.isEmpty then [] else
          CliLine.didYouMean ::
            (suggestions.take 5).map CliLine.suggestion) ++
          [CliLine.listHint])
  | some f =>
      match f (args.map parseArg) with
      | .ok result => [.resultHeader functionName, .resultVal result]
      | .error msg =>
          [.execErrorHead functionName, .execErrorMsg msg] ++
            (match categories.find? (fun c => c.2.contains functionName) with
             | some c => [.categoryHint c.1]
             | none => [])

/-- Model of the main CLI logic: the printed lines and the process
exit status.  The status is 0 in every branch because the script
neither calls process.exit nor sets process.exitCode nor lets an
exception escape (node then exits with status 0). -/
def runCli (utils : JStr → Option (List JVal → Except JStr JVal))
    (categories : List (JStr × List JStr)) (parseArg : JStr → JVal)
    (args : List JStr) : List CliLine × Nat :=
  match args with
  | [] => ([.helpText], 0)
  | a0 :: rest =>
      if a0 = ['h', 'e', 'l', 'p'] then
        match rest with
        | a1 :: _ => ([.categoryHelp a1], 0)
        | [] => ([.helpText], 0)
      else if a0 = ['l', 'i', 's', 't'] then ([.listText], 0)
      else (executeFunction utils categories parseArg a0 rest, 0)

/-! ### C8: reference and mutation model (src/src/object.cjs lines
11-30 and 79-93, src/src/array.js lines 34-41)

Aliasing claims need object identity, so these functions are modelled
over an explicit heap: a list of nodes, an address being an index,
allocation appending at the end.  Slot values are primitives or
references.  set walks the path segments, descending through
properties of typeof object (references and null), installing a fresh
empty object over missing or primitive intermediates, and assigning at
the final segment; descending into null makes the following property
access throw, modelled as error.  shuffle copies the elements, runs
the Fisher-Yates loop on the copy (the random draws are a parameter)
and allocates the copy as a new node, never writing to an existing
one.  deepMerge reduces its arguments into a freshly allocated
accumulator object; every write targets the accumulator or a fresh
node, so pre-existing nodes are never modified (the field list of an
argument is read before the iteration, faithful because the argument
nodes are never written during it).  Writes of non-index array
properties do not occur in the claims and are modelled as errors. -/

/-- A heap slot value: a primitive or a reference to a node. -/
inductive HVal where
  | hNull
  | hBool (b : Bool)
  | hNum (q : ℚ)
  | hStr (s : JStr)
  | hRef (a : Nat)

/-- A heap node: a plain object or an array. -/
inductive HNode where
  | hObj (fields : List (JStr × HVal))
  | hArr (elems : List HVal)

/-- The heap: node at address a is the list entry at index a. -/
abbrev Heap := List HNode

/-- Field lookup on a heap object node. -/
def hfGet : List (JStr × HVal) → JStr → Option HVal
  | [], _ => none
  | (k, v) :: t, key => if k = key then some v else hfGet t key

/-- Field assignment on a heap object node (existing key in place, new
key appended). -/
def hfSet : List (JStr × HVal) → JStr → HVal → List (JStr × HVal)
  | [], key, v => [(key, v)]
  | (k, w) :: t, key, v =>
      if k = key then (k, v) :: t else (k, w) :: hfSet t key v

/-- Element assignment on a heap array node (update in range, append
at the length, null holes beyond). -/
def hlSet : List HVal → Nat → HVal → List HVal
  | [], 0, v => [v]
  | [], i + 1, v => HVal.hNull :: hlSet [] i v
  | _ :: t, 0, v => v :: t
  | w :: t, i + 1, v => w :: hlSet t i v

/-- The loop of set on the split path: all segments but the last are
walked, descending through values of typeof object (a reference or
null), replacing missing or primitive intermediates with a freshly
allocated empty object; reaching null makes the next property access
throw.  The final segment is assigned on the node reached.  Every
write is to an existing address (in place) or to the fresh node. -/
def setWalk (v : HVal) : Heap → Nat → List JStr → Except Unit Heap
  | h, _, [] => .ok h
  | h, cur, [last] =>
      match h.get? cur with
      | some (.hObj fields) => .ok (h.set cur (.hObj (hfSet fields last v)))
      | some (.hArr elems) =>
          match parseIndex last with
          | some i => .ok (h.set cur (.hArr (hlSet elems i v)))
          | none => .ok h
      | none => .error ()
  | h, cur, key :: rest =>
      match h.get? cur with
      | some (.hObj fields) =>
          match hfGet fields key with
          | some (.hRef a) => setWalk v h a rest
          | some .hNull => .error ()
          | _ =>
              setWalk v
                ((h ++ [HNode.hObj []]).set cur
                  (.hObj (hfSet fields key (.hRef h.length))))
                h.length rest
      | some (.hArr elems) =>
          match parseIndex key with
          | some i =>
              match elems.get? i with
              | some (.hRef a) => setWalk v h a rest
              | some .hNull => .error ()
              | _ =>
                  setWalk v
                    ((h ++ [HNode.hObj []]).set cur
                      (.hArr (hlSet elems i (.hRef h.length))))
                    h.length rest
          | none => .error ()
      | none => .error ()

/-- Model of set(obj, path, value): split the path at dots, walk and
assign, and return the very reference that was passed in. -/
def setH (h : Heap) (root : Nat) (path : JStr) (v : HVal) :
    Except Unit (Heap × Nat) :=
  (setWalk v h root (splitOnChar '.' path)).map (fun h2 => (h2, root))

/-- The destructuring swap of two indices (in range in every Fisher-
Yates draw). -/
def swapIdx (l : List HVal) (i j : Nat) : List HVal :=
  match l.get? i, l.get? j with
  | some x, some y => (l.set i y).set j x
  | _, _ => l

/-- The Fisher-Yates loop from index i down to 1, the draw at i given
by the rand parameter. -/
def fyGo (rand : Nat → Nat) : Nat → List HVal → List HVal
  | 0, l => l
  | i + 1, l => fyGo rand i (swapIdx l (i + 1) (rand (i + 1)))

/-- Model of shuffle(arr): copy the elements, shuffle the copy and
allocate it as a new node; the argument node is never written. -/
def shuffleH (h : Heap) (a : Nat) (rand : Nat → Nat) : Heap × Nat :=
  match h.get? a with
  | some (.hArr elems) =>
      (h ++ [HNode.hArr (fyGo rand (elems.length - 1) elems)], h.length)
  | _ => (h, a)

/-- The elements of an array value (Array.isArray test combined with
the read). -/
def arrElemsH (h : Heap) : Option HVal → Option (List HVal)
  | some (.hRef a) =>
      match h.get? a with
      | some (.hArr es) => some es
      | _ => none
  | _ => none

/-- The isObject test of deepMerge: truthy, typeof object, not an
array. -/
def isObjectH (h : Heap) : Option HVal → Bool
  | some (.hRef a) =>
      match h.get? a with
      | some (.hObj _) => true
      | _ => false
  | _ => false

/-- The one-level splice of the concat spread: array-valued elements
contribute their elements, anything else itself. -/
def spreadElemsH (h : Heap) (oElems : List HVal) : List HVal :=
  oElems.flatMap (fun v =>
    match arrElemsH h (some v) with
    | some es => es
    | none => [v])

/-- The forEach over the keys of one merge argument: each key is
resolved against the accumulator object; two arrays allocate the
spliced concatenation as a new node, two plain objects recurse through
the merge parameter, anything else copies the incoming slot value.
Every write is a field update of the accumulator node or an
allocation. -/
def mergeFieldsH
    (merge2 : Heap → Nat → Nat → Except Unit (Heap × Nat)) :
    Heap → Nat → List (JStr × HVal) → Except Unit Heap
  | h, _, [] => .ok h
  | h, acc, (k, oVal) :: rest =>
      match h.get? acc with
      | some (.hObj accFields) =>
          match arrElemsH h (hfGet accFields k), arrElemsH h (some oVal) with
          | some pEs, some oEs =>
              mergeFieldsH merge2
                ((h ++ [HNode.hArr (pEs ++ spreadElemsH h oEs)]).set acc
                  (.hObj (hfSet accFields k (.hRef h.length))))
                acc rest
          | _, _ =>
              if isObjectH h (hfGet accFields k) && isObjectH h (some oVal)
              then
                match hfGet accFields k, oVal with
                | some (.hRef pa), .hRef oa =>
                    match merge2 h pa oa with
                    | .error e => .error e
                    | .ok (h1, n) =>
                        match h1.get? acc with
                        | some (.hObj accFields1) =>
                            mergeFieldsH merge2
                              (h1.set acc
                                (.hObj (hfSet accFields1 k (.hRef n))))
                              acc rest
                        | _ => .error ()
                | _, _ => .error ()
              else
                mergeFieldsH merge2
                  (h.set acc (.hObj (hfSet accFields k oVal))) acc rest
      | _ => .error ()

/-- One reduce step: Object.keys of the argument node folded into the
accumulator (Object.keys throws on null and undefined, and primitive
arguments are not exercised by the claims: both are errors here). -/
def mergeStepH (merge2 : Heap → Nat → Nat → Except Unit (Heap × Nat))
    (h : Heap) (acc obj : Nat) : Except Unit Heap :=
  match h.get? obj with
  | some (.hObj objFields) => mergeFieldsH merge2 h acc objFields
  | _ => .error ()

/-- The binary recursion of deepMerge on the heap, with a depth
budget: a fresh empty accumulator is allocated and both arguments are
folded into it. -/
def deepMergePairH : Nat → Heap → Nat → Nat → Except Unit (Heap × Nat)
  | 0, _, _, _ => .error ()
  | fuel + 1, h, pa, oa =>
      match mergeStepH (deepMergePairH fuel) (h ++ [HNode.hObj []])
          h.length pa with
      | .error e => .error e
      | .ok h1 =>
          match mergeStepH (deepMergePairH fuel) h1 h.length oa with
          | .error e => .error e
          | .ok h2 => .ok (h2, h.length)

/-- Model of deepMerge(...objects) on the heap: the argument addresses
reduced into a freshly allocated accumulator, which is returned. -/
def deepMergeH (fuel : Nat) (h : Heap) (objects : List Nat) :
    Except Unit (Heap × Nat) :=
  (objects.foldlM (fun hh obj =>
      mergeStepH (deepMergePairH fuel) hh h.length obj)
    (h ++ [HNode.hObj []])).map (fun h2 => (h2, h.length))

/-! ## Theorems -/


/-! Structural induction principles for the mutual value types. -/

theorem fieldsInductionOn {motive : JFields → Prop} (nil : motive .nil)
    (cons : ∀ k v t, motive t → motive (.cons k v t)) : ∀ f, motive f
  | .nil => nil
  | .cons k v t => cons k v t (fieldsInductionOn nil cons t)

theorem listInductionOn {motive : JList → Prop} (nil : motive .nil)
    (cons : ∀ v t, motive t → motive (.cons v t)) : ∀ l, motive l
  | .nil => nil
  | .cons v t => cons v t (listInductionOn nil cons t)

mutual

theorem JVal.indV {motiveV : JVal → Prop} {motiveL : JList → Prop}
    {motiveF : JFields → Prop}
    (hnull : motiveV .vNull) (hbool : ∀ b, motiveV (.vBool b))
    (hnum : ∀ q, motiveV (.vNum q)) (hstr : ∀ s, motiveV (.vStr s))
    (harr : ∀ a, motiveL a → motiveV (.vArr a))
    (hobj : ∀ f, motiveF f → motiveV (.vObj f))
    (hlnil : motiveL .nil)
    (hlcons : ∀ v t, motiveV v → motiveL t → motiveL (.cons v t))
    (hfnil : motiveF .nil)
    (hfcons : ∀ k v t, motiveV v → motiveF t → motiveF (.cons k v t)) :
    ∀ v, motiveV v
  | .vNull => hnull
  | .vBool b => hbool b
  | .vNum q => hnum q
  | .vStr s => hstr s
  | .vArr a =>
      harr a (JList.indL hnull hbool hnum hstr harr hobj hlnil hlcons
        hfnil hfcons a)
  | .vObj f =>
      hobj f (JFields.indF hnull hbool hnum hstr harr hobj hlnil hlcons
        hfnil hfcons f)

theorem JList.indL {motiveV : JVal → Prop} {motiveL : JList → Prop}
    {motiveF : JFields → Prop}
    (hnull : motiveV .vNull) (hbool : ∀ b, motiveV (.vBool b))
    (hnum : ∀ q, motiveV (.vNum q)) (hstr : ∀ s, motiveV (.vStr s))
    (harr : ∀ a, motiveL a → motiveV (.vArr a))
    (hobj : ∀ f, motiveF f → motiveV (.vObj f))
    (hlnil : motiveL .nil)
    (hlcons : ∀ v t, motiveV v → motiveL t → motiveL (.cons v t))
    (hfnil : motiveF .nil)
    (hfcons : ∀ k v t, motiveV v → motiveF t → motiveF (.cons k v t)) :
    ∀ l, motiveL l
  | .nil => hlnil
  | .cons v t =>
      hlcons v t
        (JVal.indV hnull hbool hnum hstr harr hobj hlnil hlcons hfnil
          hfcons v)
        (JList.indL hnull hbool hnum hstr harr hobj hlnil hlcons hfnil
          hfcons t)

theorem JFields.indF {motiveV : JVal → Prop} {motiveL : JList → Prop}
    {motiveF : JFields → Prop}
    (hnull : motiveV .vNull) (hbool : ∀ b, motiveV (.vBool b))
    (hnum : ∀ q, motiveV (.vNum q)) (hstr : ∀ s, motiveV (.vStr s))
    (harr : ∀ a, motiveL a → motiveV (.vArr a))
    (hobj : ∀ f, motiveF f → motiveV (.vObj f))
    (hlnil : motiveL .nil)
    (hlcons : ∀ v t, motiveV v → motiveL t → motiveL (.cons v t))
    (hfnil : motiveF .nil)
    (hfcons : ∀ k v t, motiveV v → motiveF t → motiveF (.cons k v t)) :
    ∀ f, motiveF f
  | .nil => hfnil
  | .cons k v t =>
      hfcons k v t
        (JVal.indV hnull hbool hnum hstr harr hobj hlnil hlcons hfnil
          hfcons v)
        (JFields.indF hnull hbool hnum hstr harr hobj hlnil hlcons hfnil
          hfcons t)

end

/-! ### C10 -/

theorem xorCipherGo_involutive (key : List Nat) (hk : key ≠ [])
    (hkb : ∀ u ∈ key, u < 65536) :
    ∀ (text : List Nat) (i : Nat), (∀ u ∈ text, u < 65536) →
      xorCipherGo key i (xorCipherGo key i text) = text := by
  intro text
  induction text with
  | nil => intro i _; rfl
  | cons c cs ih =>
      intro i hb
      have hlen : 0 < key.length := List.length_pos.mpr hk
      have hidx : i % key.length < key.length := Nat.mod_lt _ hlen
      have hkey : key.getD (i % key.length) 0 < 65536 := by
        have : key.getD (i % key.length) 0 ∈ key := by
          rw [List.getD_eq_getElem key 0 hidx]
          exact List.getElem_mem _
        exact hkb _ this
      have hc : c < 65536 := hb c (List.mem_cons_self _ _)
      have h65536 : (65536 : Nat) = 2 ^ 16 := by norm_num
      have hxor : c ^^^ key.getD (i % key.length) 0 < 65536 := by
        rw [h65536] at hc hkey ⊢
        exact Nat.xor_lt_two_pow hc hkey
      simp only [xorCipherGo]
      rw [Nat.mod_eq_of_lt hxor, Nat.xor_cancel_right,
        Nat.mod_eq_of_lt hc,
        ih (i + 1) (fun u hu => hb u (List.mem_cons_of_mem _ hu))]

/-- C10: xorCipher is self-inverse: for every text and non-empty key (all
modelled as lists of UTF-16 code units, so all units below 2 ^ 16),
applying xorCipher twice with the same key returns the original text. -/
theorem xorCipher_self_inverse (text key : List Nat) (hk : key ≠ [])
    (ht : ∀ u ∈ text, u < 65536) (hkb : ∀ u ∈ key, u < 65536) :
    xorCipher (xorCipher text key) key = text :=
  xorCipherGo_involutive key hk hkb text 0 ht

theorem xorCipher_self_inverse_witness :
    xorCipher (xorCipher [72, 101, 108, 108, 111] [75, 33]) [75, 33] =
      [72, 101, 108, 108, 111] :=
  xorCipher_self_inverse [72, 101, 108, 108, 111] [75, 33]
    (by decide) (by decide) (by decide)

/-! ### C7 -/

theorem mem_uniqueAux {α : Type} [DecidableEq α] (l : List α) :
    ∀ (acc : List α) (x : α), x ∈ uniqueAux acc l ↔ x ∈ acc ∨ x ∈ l := by
  induction l with
  | nil => intro acc x; simp [uniqueAux]
  | cons y ys ih =>
      intro acc x
      simp only [uniqueAux]
      by_cases hy : y ∈ acc
      · simp only [if_pos hy, ih]
        constructor
        · rintro (h | h)
          · exact Or.inl h
          · exact Or.inr (List.mem_cons_of_mem _ h)
        · rintro (h | h)
          · exact Or.inl h
          · rcases List.mem_cons.mp h with rfl | h
            · exact Or.inl hy
            · exact Or.inr h
      · simp only [if_neg hy, ih, List.mem_append, List.mem_singleton,
          List.mem_cons]
        tauto

theorem nodup_uniqueAux {α : Type} [DecidableEq α] (l : List α) :
    ∀ acc : List α, acc.Nodup → (uniqueAux acc l).Nodup := by
  induction l with
  | nil => intro acc h; exact h
  | cons y ys ih =>
      intro acc h
      simp only [uniqueAux]
      by_cases hy : y ∈ acc
      · rw [if_pos hy]; exact ih acc h
      · rw [if_neg hy]
        refine ih _ ?_
        simpa [List.nodup_append] using ⟨h, hy⟩

theorem uniqueAux_eq_append {α : Type} [DecidableEq α] (l : List α) :
    ∀ acc : List α,
      uniqueAux acc l = acc ++ (uniqueAux [] l).filter (fun y => y ∉ acc) := by
  induction l with
  | nil => intro acc; simp [uniqueAux]
  | cons x xs ih =>
      intro acc
      have hbase : uniqueAux ([] : List α) (x :: xs) =
          x :: (uniqueAux [] xs).filter (fun y => y ≠ x) := by
        simp only [uniqueAux, if_neg (List.not_mem_nil x), List.nil_append]
        rw [ih [x]]
        simp only [List.singleton_append, List.cons.injEq, true_and]
        apply List.filter_congr
        intro y _
        simp
      rw [hbase]
      by_cases hx : x ∈ acc
      · have hstep : uniqueAux acc (x :: xs) = uniqueAux acc xs := by
          simp only [uniqueAux, if_pos hx]
        rw [hstep, ih acc]
        congr 1
        simp only [List.filter_cons]
        rw [if_neg (by simpa using hx), List.filter_filter]
        apply List.filter_congr
        intro y _
        by_cases hyx : y = x
        · subst hyx; simp [hx]
        · simp [hyx]
      · have hstep : uniqueAux acc (x :: xs) = uniqueAux (acc ++ [x]) xs := by
          simp only [uniqueAux, if_neg hx]
        rw [hstep, ih (acc ++ [x])]
        simp only [List.filter_cons]
        rw [if_pos (by simpa using hx)]
        rw [List.append_assoc, List.singleton_append, List.filter_filter]
        congr 2
        apply List.filter_congr
        intro y _
        by_cases hyx : y = x
        · subst hyx; simp
        · simp [hyx, and_comm]

theorem unique_cons {α : Type} [DecidableEq α] (x : α) (l : List α) :
    unique (x :: l) = x :: (unique l).filter (fun y => y ≠ x) := by
  show uniqueAux [] (x :: l) = _
  simp only [uniqueAux, List.not_mem_nil, if_neg (fun h => h),
    List.nil_append]
  rw [uniqueAux_eq_append l [x]]
  simp only [List.singleton_append, List.cons.injEq, true_and]
  apply List.filter_congr
  intro y _
  simp

theorem mem_unique {α : Type} [DecidableEq α] (l : List α) (x : α) :
    x ∈ unique l ↔ x ∈ l := by
  rw [unique, mem_uniqueAux]
  simp

/-- C7: unique(a) contains each distinct element of a exactly once (count
one for members, and no non-members), ordered by first occurrence: the
elements of unique(a) appear in strictly increasing order of their first
index in a. -/
theorem unique_spec {α : Type} [DecidableEq α] (l : List α) :
    (∀ x, x ∈ unique l ↔ x ∈ l) ∧
    (∀ x ∈ l, (unique l).count x = 1) ∧
    (unique l).Pairwise (fun a b => l.indexOf a < l.indexOf b) := by
  refine ⟨mem_unique l, ?_, ?_⟩
  · intro x hx
    have hnd : (unique l).Nodup := nodup_uniqueAux l [] (List.nodup_nil)
    exact List.count_eq_one_of_mem hnd ((mem_unique l x).mpr hx)
  · induction l with
    | nil => simp [unique, uniqueAux]
    | cons y ys ih =>
        rw [unique_cons]
        constructor
        · intro b hb
          have hb' := List.of_mem_filter hb
          have hbne : b ≠ y := by simpa using hb'
          have hbmem : b ∈ ys :=
            (mem_unique ys b).mp (List.mem_of_mem_filter hb)
          rw [List.indexOf_cons_self, List.indexOf_cons_ne _ (Ne.symm hbne)]
          exact Nat.succ_pos _
        · have hf : ((unique ys).filter (fun b => b ≠ y)).Pairwise
              (fun a b => ys.indexOf a < ys.indexOf b) :=
            List.Pairwise.filter _ ih
          refine hf.imp_of_mem ?_
          intro a b ha hb hlt
          have hane : a ≠ y := by simpa using List.of_mem_filter ha
          have hbne : b ≠ y := by simpa using List.of_mem_filter hb
          rw [List.indexOf_cons_ne _ (Ne.symm hane),
            List.indexOf_cons_ne _ (Ne.symm hbne)]
          exact Nat.succ_lt_succ hlt

theorem unique_spec_witness :
    (unique [1, 2, 1, 3] = [1, 2, 3]) ∧ (unique [1, 2, 1, 3]).count 1 = 1 :=
  ⟨by decide, (unique_spec [1, 2, 1, 3]).2.1 1 (by decide)⟩

/-! ### C6 -/

/-- C6: failures are reported by sentinel values, never by a propagated
exception: whenever the underlying URL parser throws, parseUrl returns
null (none); whenever the underlying file read throws, readFile returns
null; whenever the underlying file write throws, writeFile returns false.
Since each wrapper is a total function into an exception-free type, the
underlying exception cannot escape to the caller. -/
theorem sentinel_on_failure
    (urlImpl : JStr → Except JStr UrlParts)
    (readImpl : JStr → JStr → Except JStr JStr)
    (writeImpl : JStr → JStr → JStr → Except JStr Unit)
    (url p1 enc1 p2 content enc2 e1 e2 e3 : JStr)
    (hu : urlImpl url = .error e1)
    (hr : readImpl p1 enc1 = .error e2)
    (hw : writeImpl p2 content enc2 = .error e3) :
    parseUrl urlImpl url = none ∧
    readFile readImpl p1 enc1 = none ∧
    writeFile writeImpl p2 content enc2 = false := by
  refine ⟨?_, ?_, ?_⟩
  · simp [parseUrl, hu]
  · simp [readFile, hr]
  · simp [writeFile, hw]

theorem sentinel_on_failure_witness :
    parseUrl (fun _ => .error []) [] = none ∧
    readFile (fun _ _ => .error []) [] [] = none ∧
    writeFile (fun _ _ _ => .error []) [] [] [] = false :=
  sentinel_on_failure (fun _ => .error []) (fun _ _ => .error [])
    (fun _ _ _ => .error []) [] [] [] [] [] [] [] [] []
    rfl rfl rfl

/-! ### C4 -/

theorem editDistance_nil_left (ys : List Char) :
    editDistance [] ys = ys.length := by
  cases ys <;> simp [editDistance]

theorem editDistance_nil_right (xs : List Char) :
    editDistance xs [] = xs.length := by
  cases xs <;> simp [editDistance]

theorem editDistance_cons_cons (x y : Char) (xs ys : List Char) :
    editDistance (x :: xs) (y :: ys) =
      if x = y then editDistance xs ys
      else
        min (min (editDistance xs ys) (editDistance (x :: xs) ys))
          (editDistance xs (y :: ys)) + 1 := by
  simp [editDistance]

theorem editDistance_single (y : Char) (zs : List Char) :
    editDistance zs [y] =
      if y ∈ zs then zs.length - 1 else max zs.length 1 := by
  induction zs with
  | nil => simp [editDistance_nil_left]
  | cons a zs ih =>
      rw [editDistance_cons_cons]
      by_cases hay : a = y
      · subst hay
        rw [if_pos rfl, if_pos (List.mem_cons_self a zs)]
        rw [editDistance_nil_right]
        simp
      · rw [if_neg hay, editDistance_nil_right, editDistance_nil_right, ih]
        by_cases hy : y ∈ zs
        · rw [if_pos hy, if_pos (List.mem_cons_of_mem a hy)]
          have : 1 ≤ zs.length := List.length_pos.mpr (List.ne_nil_of_mem hy)
          simp only [List.length_cons]
          omega
        · rw [if_neg hy, if_neg (by simp [hay, hy, Ne.symm])]
          simp only [List.length_cons]
          cases zs with
          | nil => simp
          | cons b bs => simp only [List.length_cons]; omega

theorem editDistance_comm (xs ys : List Char) :
    editDistance xs ys = editDistance ys xs := by
  have key : ∀ n (xs ys : List Char), xs.length + ys.length ≤ n →
      editDistance xs ys = editDistance ys xs := by
    intro n
    induction n with
    | zero =>
        intro xs ys h
        have hx : xs = [] := List.eq_nil_of_length_eq_zero (by omega)
        have hy : ys = [] := List.eq_nil_of_length_eq_zero (by omega)
        subst hx; subst hy; rfl
    | succ n ih =>
        intro xs ys h
        cases xs with
        | nil => rw [editDistance_nil_left, editDistance_nil_right]
        | cons x xs =>
            cases ys with
            | nil => rw [editDistance_nil_left, editDistance_nil_right]
            | cons y ys =>
                rw [editDistance_cons_cons, editDistance_cons_cons]
                simp only [List.length_cons] at h
                have h1 := ih xs ys (by omega)
                have h2 := ih (x :: xs) ys (by simp only [List.length_cons]; omega)
                have h3 := ih xs (y :: ys) (by simp only [List.length_cons]; omega)
                by_cases hxy : x = y
                · subst hxy; rw [if_pos rfl, if_pos rfl, h1]
                · rw [if_neg hxy, if_neg (Ne.symm hxy), h1, h2, h3]
                  omega
  exact key (xs.length + ys.length) xs ys le_rfl


theorem editDistance_single_cons (y a : Char) (as : List Char) :
    editDistance (a :: as) [y] =
      if y ∈ a :: as then as.length else as.length + 1 := by
  rw [editDistance_single]
  by_cases hy : y ∈ a :: as
  · rw [if_pos hy, if_pos hy]
    simp
  · rw [if_neg hy, if_neg hy]
    simp [Nat.max_eq_left]

set_option maxHeartbeats 1000000 in
theorem editDistance_snoc (x y : Char) (xs ys : List Char) :
    editDistance (xs ++ [x]) (ys ++ [y]) =
      if x = y then editDistance xs ys
      else
        min (min (editDistance xs ys) (editDistance (xs ++ [x]) ys))
          (editDistance xs (ys ++ [y])) + 1 := by
  have key : ∀ n (xs ys : List Char), xs.length + ys.length ≤ n →
      editDistance (xs ++ [x]) (ys ++ [y]) =
        if x = y then editDistance xs ys
        else
          min (min (editDistance xs ys) (editDistance (xs ++ [x]) ys))
            (editDistance xs (ys ++ [y])) + 1 := by
    intro n
    induction n with
    | zero =>
        intro xs ys h
        have hx : xs = [] := List.eq_nil_of_length_eq_zero (by omega)
        have hy : ys = [] := List.eq_nil_of_length_eq_zero (by omega)
        subst hx; subst hy
        simp only [List.nil_append]
        rw [editDistance_cons_cons]
    | succ n ih =>
        intro xs ys h
        cases xs with
        | nil =>
            cases ys with
            | nil =>
                simp only [List.nil_append]
                rw [editDistance_cons_cons]
            | cons b bs =>
                simp only [List.nil_append, List.cons_append]
                rw [editDistance_comm [x] (b :: (bs ++ [y])),
                  editDistance_single_cons,
                  editDistance_comm [x] (b :: bs),
                  editDistance_single_cons, editDistance_nil_left,
                  editDistance_nil_left]
                by_cases hxy : x = y
                · subst hxy
                  rw [if_pos rfl, if_pos (by simp)]
                  simp only [List.length_cons, List.length_append,
                    List.length_nil]
                · rw [if_neg hxy]
                  by_cases hxin : x ∈ b :: bs
                  · rw [if_pos (by simp at hxin ⊢; tauto), if_pos hxin]
                    simp only [List.length_cons, List.length_append,
                      List.length_nil]
                    omega
                  · rw [if_neg (by simp at hxin ⊢; tauto), if_neg hxin]
                    simp only [List.length_cons, List.length_append,
                      List.length_nil]
                    omega
        | cons a as =>
            cases ys with
            | nil =>
                simp only [List.nil_append, List.cons_append]
                rw [editDistance_single_cons, editDistance_single_cons,
                  editDistance_nil_right, editDistance_nil_right]
                by_cases hxy : x = y
                · subst hxy
                  rw [if_pos rfl, if_pos (by simp)]
                  simp only [List.length_cons, List.length_append,
                    List.length_nil]
                · rw [if_neg hxy]
                  by_cases hyin : y ∈ a :: as
                  · rw [if_pos (by simp at hyin ⊢; tauto), if_pos hyin]
                    simp only [List.length_cons, List.length_append,
                      List.length_nil]
                    omega
                  · rw [if_neg (by simp at hyin ⊢; tauto), if_neg hyin]
                    simp only [List.length_cons, List.length_append,
                      List.length_nil]
                    omega
            | cons b bs =>
                simp only [List.length_cons] at h
                have ih1 := ih as bs (by omega)
                have ih2 := ih (a :: as) bs
                  (by simp only [List.length_cons]; omega)
                have ih3 := ih as (b :: bs)
                  (by simp only [List.length_cons]; omega)
                simp only [List.cons_append] at ih1 ih2 ih3 ⊢
                by_cases hxy : x = y
                · rw [if_pos hxy] at ih1 ih2 ih3
                  rw [if_pos hxy]
                  by_cases hab : a = b
                  · rw [editDistance_cons_cons a b (as ++ [x]) (bs ++ [y]),
                      if_pos hab, ih1,
                      editDistance_cons_cons a b as bs, if_pos hab]
                  · rw [editDistance_cons_cons a b (as ++ [x]) (bs ++ [y]),
                      if_neg hab, ih1, ih2, ih3,
                      editDistance_cons_cons a b as bs, if_neg hab]
                · rw [if_neg hxy] at ih1 ih2 ih3
                  rw [if_neg hxy]
                  by_cases hab : a = b
                  · rw [editDistance_cons_cons a b (as ++ [x]) (bs ++ [y]),
                      if_pos hab, ih1,
                      editDistance_cons_cons a b as bs, if_pos hab,
                      editDistance_cons_cons a b (as ++ [x]) bs, if_pos hab,
                      editDistance_cons_cons a b as (bs ++ [y]), if_pos hab]
                  · rw [editDistance_cons_cons a b (as ++ [x]) (bs ++ [y]),
                      if_neg hab, ih1, ih2, ih3,
                      editDistance_cons_cons a b as bs, if_neg hab,
                      editDistance_cons_cons a b (as ++ [x]) bs, if_neg hab,
                      editDistance_cons_cons a b as (bs ++ [y]), if_neg hab]
                    simp only [Nat.add_min_add_right]
                    have hcong : ∀ u v : Nat, u = v → u + 1 + 1 = v + 1 + 1 := by
                      omega
                    apply hcong
                    apply Nat.le_antisymm <;>
                      simp only [le_min_iff, min_le_iff] <;> tauto
  exact key (xs.length + ys.length) xs ys le_rfl

theorem editDistance_reverse (xs ys : List Char) :
    editDistance xs.reverse ys.reverse = editDistance xs ys := by
  have key : ∀ n (xs ys : List Char), xs.length + ys.length ≤ n →
      editDistance xs.reverse ys.reverse = editDistance xs ys := by
    intro n
    induction n with
    | zero =>
        intro xs ys h
        have hx : xs = [] := List.eq_nil_of_length_eq_zero (by omega)
        have hy : ys = [] := List.eq_nil_of_length_eq_zero (by omega)
        subst hx; subst hy; rfl
    | succ n ih =>
        intro xs ys h
        cases xs with
        | nil =>
            simp only [List.reverse_nil, editDistance_nil_left,
              List.length_reverse]
        | cons x xs =>
            cases ys with
            | nil =>
                simp only [List.reverse_nil, editDistance_nil_right,
                  List.length_reverse]
            | cons y ys =>
                simp only [List.length_cons] at h
                have e1 := ih xs ys (by omega)
                have e2 : editDistance (xs.reverse ++ [x]) ys.reverse =
                    editDistance (x :: xs) ys := by
                  rw [← List.reverse_cons]
                  exact ih (x :: xs) ys (by simp only [List.length_cons]; omega)
                have e3 : editDistance xs.reverse (ys.reverse ++ [y]) =
                    editDistance xs (y :: ys) := by
                  rw [← List.reverse_cons]
                  exact ih xs (y :: ys) (by simp only [List.length_cons]; omega)
                rw [List.reverse_cons, List.reverse_cons, editDistance_snoc,
                  e1, e2, e3, editDistance_cons_cons]
  exact key (xs.length + ys.length) xs ys le_rfl

theorem jsLevMat_correct (str1 str2 : List Char) :
    ∀ i j, i ≤ str2.length → j ≤ str1.length →
      jsLevMat str1 str2 i j =
        editDistance ((str1.take j).reverse) ((str2.take i).reverse) := by
  intro i
  induction i with
  | zero =>
      intro j _ hj
      simp only [jsLevMat, List.take_zero, List.reverse_nil,
        editDistance_nil_right, List.length_reverse, List.length_take]
      omega
  | succ i ihrow =>
      intro j hi hj
      induction j with
      | zero =>
          simp only [jsLevMat, jsLevRow, List.take_zero, List.reverse_nil,
            editDistance_nil_left, List.length_reverse, List.length_take]
          omega
      | succ j ihcol =>
          have hi' : i < str2.length := by omega
          have hj' : j < str1.length := by omega
          have ht1 : str1.take (j + 1) = str1.take j ++ [str1[j]] := by
            rw [List.take_succ]
            simp [List.getElem?_eq_getElem hj']
          have ht2 : str2.take (i + 1) = str2.take i ++ [str2[i]] := by
            rw [List.take_succ]
            simp [List.getElem?_eq_getElem hi']
          have hc1 : str1.getD j ' ' = str1[j] := by
            rw [List.getD_eq_getElem str1 ' ' hj']
          have hc2 : str2.getD i ' ' = str2[i] := by
            rw [List.getD_eq_getElem str2 ' ' hi']
          show jsLevRow str1 str2 (jsLevMat str1 str2 i) i (j + 1) = _
          rw [ht1, ht2, List.reverse_append, List.reverse_append]
          simp only [List.reverse_singleton, List.singleton_append]
          rw [editDistance_cons_cons]
          simp only [jsLevRow, hc1, hc2]
          have hm0 := ihrow j (by omega) (by omega)
          have hm1 : jsLevMat str1 str2 i (j + 1) =
              editDistance (str1[j] :: (str1.take j).reverse)
                ((str2.take i).reverse) := by
            rw [ihrow (j + 1) (by omega) (by omega), ht1,
              List.reverse_append, List.reverse_singleton,
              List.singleton_append]
          have hrow' : jsLevRow str1 str2 (jsLevMat str1 str2 i) i j =
              editDistance ((str1.take j).reverse)
                (str2[i] :: (str2.take i).reverse) := by
            have hstep : jsLevMat str1 str2 (i + 1) j =
                jsLevRow str1 str2 (jsLevMat str1 str2 i) i j := rfl
            rw [← hstep, ihcol (by omega), ht2, List.reverse_append,
              List.reverse_singleton, List.singleton_append]
          rw [hm0, hm1, hrow']
          by_cases hch : str2[i] = str1[j]
          · rw [if_pos hch, if_pos hch.symm]
          · rw [if_neg hch, if_neg (fun hkk => hch hkk.symm)]
            omega

theorem levenshtein_matches_editDistance (str1 str2 : List Char) :
    levenshteinDistance str1 str2 = editDistance str1 str2 := by
  unfold levenshteinDistance
  rw [jsLevMat_correct str1 str2 str2.length str1.length le_rfl le_rfl,
    List.take_length, List.take_length, editDistance_reverse]

/-- C4: levenshteinDistance computes the standard unit-cost edit distance
(insertions, deletions, substitutions), similarity(s1, s2) equals
(max_len - distance) / max_len with max_len the longer length (1.0 when
both strings are empty), levenshteinDistance kitten sitting is 3 and
similarity kitten sitting is 4/7. -/
theorem levenshtein_similarity_spec (str1 str2 : List Char) :
    levenshteinDistance str1 str2 = editDistance str1 str2 ∧
    similarity str1 str2 =
      (if (max str1.length str2.length : ℕ) = 0 then 1
       else (((max str1.length str2.length : ℕ) : ℚ) -
          (editDistance str1 str2 : ℚ)) /
         ((max str1.length str2.length : ℕ) : ℚ)) ∧
    levenshteinDistance
        ['k', 'i', 't', 't', 'e', 'n'] ['s', 'i', 't', 't', 'i', 'n', 'g']
      = 3 ∧
    similarity
        ['k', 'i', 't', 't', 'e', 'n'] ['s', 'i', 't', 't', 'i', 'n', 'g']
      = 4 / 7 := by
  refine ⟨levenshtein_matches_editDistance str1 str2, ?_, by decide, ?_⟩
  · simp only [similarity, gt_iff_lt]
    by_cases hgt : str2.length < str1.length
    · rw [if_pos hgt, if_pos hgt,
        Nat.max_eq_left (Nat.le_of_lt hgt),
        levenshtein_matches_editDistance]
    · rw [if_neg hgt, if_neg hgt,
        Nat.max_eq_right (Nat.le_of_not_lt hgt),
        levenshtein_matches_editDistance, editDistance_comm]
  · have hlev : levenshteinDistance
        ['s', 'i', 't', 't', 'i', 'n', 'g'] ['k', 'i', 't', 't', 'e', 'n']
        = 3 := by decide
    simp only [similarity, List.length_cons, List.length_nil, gt_iff_lt]
    norm_num [hlev]

/-! ### C5 -/

theorem toNat_ofNat_valid (n : Nat) (h : n.isValidChar) :
    (Char.ofNat n).toNat = n := by
  rw [Char.ofNat, dif_pos h]
  rfl

theorem jsToLower_fixes (d : Char) : jsToLower (jsToLower d) = jsToLower d := by
  unfold jsToLower
  by_cases hup : 'A' ≤ d ∧ d ≤ 'Z'
  · rw [if_pos hup]
    have hA : ('A' : Char).toNat = 65 := by decide
    have hZ : ('Z' : Char).toNat = 90 := by decide
    have hle : d.toNat ≤ 90 := by
      have := hup.2
      rw [Char.le_def] at this
      have : d.toNat ≤ ('Z' : Char).toNat := this
      omega
    have hge : 65 ≤ d.toNat := by
      have := hup.1
      rw [Char.le_def] at this
      have : ('A' : Char).toNat ≤ d.toNat := this
      omega
    have hvalid : (d.toNat + 32).isValidChar := Or.inl (by omega)
    have htn : (Char.ofNat (d.toNat + 32)).toNat = d.toNat + 32 :=
      toNat_ofNat_valid _ hvalid
    rw [if_neg]
    intro hcon
    have h1 : ('A' : Char).toNat ≤ (Char.ofNat (d.toNat + 32)).toNat := hcon.1
    have h2 : (Char.ofNat (d.toNat + 32)).toNat ≤ ('Z' : Char).toNat := hcon.2
    rw [htn, hA] at h1
    rw [htn, hZ] at h2
    omega
  · rw [if_neg hup, if_neg hup]

theorem map_id_of_mem {α : Type} (l : List α) (f : α → α)
    (h : ∀ c ∈ l, f c = c) : l.map f = l := by
  induction l with
  | nil => rfl
  | cons x xs ih =>
      simp only [List.map_cons, h x (List.mem_cons_self x xs),
        ih (fun c hc => h c (List.mem_cons_of_mem x hc))]

theorem dropWhile_eq_self_of_all {α : Type} (l : List α) (p : α → Bool)
    (h : ∀ c ∈ l, p c = false) : l.dropWhile p = l := by
  cases l with
  | nil => rfl
  | cons x xs =>
      rw [List.dropWhile_cons_of_neg]
      simp [h x (List.mem_cons_self x xs)]

theorem wsRunsGo_eq_self (l : JStr) (h : ∀ c ∈ l, isJsWs c = false) :
    ∀ b, wsRunsGo b l = l := by
  induction l with
  | nil => intro b; rfl
  | cons c cs ih =>
      intro b
      simp only [wsRunsGo, h c (List.mem_cons_self c cs)]
      simp only [Bool.false_eq_true, if_false]
      rw [ih (fun d hd => h d (List.mem_cons_of_mem c hd)) false]

theorem mem_wsRunsGo (l : JStr) :
    ∀ b c, c ∈ wsRunsGo b l → c ∈ l ∨ c = '-' := by
  induction l with
  | nil => intro b c h; simp [wsRunsGo] at h
  | cons d ds ih =>
      intro b c h
      simp only [wsRunsGo] at h
      by_cases hws : isJsWs d
      · rw [if_pos hws] at h
        cases b with
        | true =>
            rcases ih true c h with h' | h'
            · exact Or.inl (List.mem_cons_of_mem d h')
            · exact Or.inr h'
        | false =>
            rcases List.mem_cons.mp h with rfl | h'
            · exact Or.inr rfl
            · rcases ih true c h' with h'' | h''
              · exact Or.inl (List.mem_cons_of_mem d h'')
              · exact Or.inr h''
      · simp only [hws, Bool.false_eq_true, if_false] at h
        rcases List.mem_cons.mp h with rfl | h'
        · exact Or.inl (List.mem_cons_self c ds)
        · rcases ih false c h' with h'' | h''
          · exact Or.inl (List.mem_cons_of_mem d h'')
          · exact Or.inr h''

theorem mem_collapseGo (l : JStr) :
    ∀ b c, c ∈ collapseGo b l → c ∈ l := by
  induction l with
  | nil => intro b c h; simp [collapseGo] at h
  | cons d ds ih =>
      intro b c h
      simp only [collapseGo] at h
      by_cases hd : d = '-'
      · rw [if_pos hd] at h
        cases b with
        | true => exact List.mem_cons_of_mem d (ih true c h)
        | false =>
            rcases List.mem_cons.mp h with rfl | h'
            · subst hd; exact List.mem_cons_self _ _
            · exact List.mem_cons_of_mem d (ih true c h')
      · rw [if_neg hd] at h
        rcases List.mem_cons.mp h with rfl | h'
        · exact List.mem_cons_self c ds
        · exact List.mem_cons_of_mem d (ih false c h')

theorem collapseGo_noTwo (l : JStr) :
    ∀ b, NoTwoHyphens (collapseGo b l) ∧
      (b = true → (collapseGo b l).head? ≠ some '-') := by
  induction l with
  | nil => intro b; exact ⟨List.chain'_nil, fun _ => by simp [collapseGo]⟩
  | cons d ds ih =>
      intro b
      simp only [collapseGo]
      by_cases hd : d = '-'
      · rw [if_pos hd]
        cases b with
        | true =>
            simp only [if_pos rfl]
            exact ⟨(ih true).1, fun _ => (ih true).2 rfl⟩
        | false =>
            simp only [Bool.false_eq_true, if_false]
            constructor
            · refine List.chain'_cons'.mpr ?_
              refine ⟨?_, (ih true).1⟩
              intro y hy
              intro hcon
              exact (ih true).2 rfl (by
                cases hh : (collapseGo true ds).head? with
                | none => rw [hh] at hy; simp at hy
                | some z =>
                    rw [hh] at hy
                    simp at hy
                    rw [hy, hcon.2])
            · intro hcon; cases hcon
      · rw [if_neg hd]
        constructor
        · refine List.chain'_cons'.mpr ⟨?_, (ih false).1⟩
          intro y hy hcon
          exact hd hcon.1
        · intro _
          intro hcon
          exact hd (Option.some.inj hcon)

theorem collapseGo_id (l : JStr) :
    NoTwoHyphens l →
      ∀ b, (b = true → l.head? ≠ some '-') → collapseGo b l = l := by
  induction l with
  | nil => intro _ b _; rfl
  | cons d ds ih =>
      intro h b hb
      have htail : NoTwoHyphens ds := h.tail
      simp only [collapseGo]
      by_cases hd : d = '-'
      · cases b with
        | true => exact absurd (by rw [hd]; rfl) (hb rfl)
        | false =>
            rw [if_pos hd]
            simp only [Bool.false_eq_true, if_false]
            have hnext : (true = true) → ds.head? ≠ some '-' := by
              intro _
              cases hds : ds.head? with
              | none => simp
              | some z =>
                  intro hcon
                  have hz : z = '-' := Option.some.inj hcon
                  cases ds with
                  | nil => simp at hds
                  | cons e es =>
                      have := List.chain'_cons'.mp h
                      have he : e = z := by
                        simp only [List.head?_cons, Option.some.injEq] at hds
                        exact hds
                      exact this.1 e (by simp) ⟨hd, by rw [he, hz]⟩
            rw [ih htail true hnext, hd]
      · rw [if_neg hd]
        rw [ih htail false (by intro hcon; cases hcon)]

theorem head_false_of_dropWhile {α : Type} (p : α → Bool) (l : List α) :
    ∀ c, (l.dropWhile p).head? = some c → p c = false := by
  induction l with
  | nil => intro c h; simp at h
  | cons x xs ih =>
      intro c h
      by_cases hx : p x
      · rw [List.dropWhile_cons_of_pos hx] at h
        exact ih c h
      · rw [List.dropWhile_cons_of_neg hx] at h
        simp only [List.head?_cons, Option.some.injEq] at h
        subst h
        simpa using hx

theorem reverseOfSuffix {α : Type} {l₁ l₂ : List α} (h : l₁ <:+ l₂) :
    l₁.reverse <+: l₂.reverse := by
  rcases h with ⟨t, rfl⟩
  exact ⟨t.reverse, by simp⟩

theorem headSomeOfPre {α : Type} {l₁ l₂ : List α} (h : l₁ <+: l₂)
    (c : α) (hc : l₁.head? = some c) : l₂.head? = some c := by
  rcases h with ⟨t, rfl⟩
  cases l₁ with
  | nil => simp at hc
  | cons x xs => simpa using hc

theorem ws_not_kept (c : Char) (h : isJsWs c = true) :
    keepWordOrHyphen c = false := by
  simp only [isJsWs, Bool.or_eq_true, beq_iff_eq] at h
  rcases h with ((((h | h) | h) | h) | h) | h <;> subst h <;> decide

theorem dropWhile_noop_of_head {α : Type} (p : α → Bool) (l : List α)
    (h : ∀ c, l.head? = some c → p c = false) : l.dropWhile p = l := by
  cases l with
  | nil => rfl
  | cons x xs =>
      rw [List.dropWhile_cons_of_neg]
      simp [h x rfl]

theorem slugify_facts (text : JStr) :
    (∀ c ∈ slugify text, keepWordOrHyphen c = true) ∧
    (∀ c ∈ slugify text, jsToLower c = c) ∧
    NoTwoHyphens (slugify text) ∧
    (slugify text).head? ≠ some '-' ∧
    ((slugify text).reverse).head? ≠ some '-' := by
  have hs : slugify text =
      (((collapseHyphens ((replaceWsRuns
            (jsTrim (text.map jsToLower))).filter
            keepWordOrHyphen)).dropWhile
          (fun c => c = '-')).reverse.dropWhile
        (fun c => c = '-')).reverse := rfl
  set s1 : JStr := text.map jsToLower with hs1
  set s2 : JStr := jsTrim s1 with hs2
  set s3 : JStr := replaceWsRuns s2 with hs3
  set s4 : JStr := s3.filter keepWordOrHyphen with hs4
  set s5 : JStr := collapseHyphens s4 with hs5
  set s6 : JStr := s5.dropWhile (fun c => c = '-') with hs6
  have hm76 : ∀ c ∈ slugify text, c ∈ s6 := by
    intro c hc
    rw [hs] at hc
    rw [List.mem_reverse] at hc
    have := (List.dropWhile_suffix
      (fun c => decide (c = '-'))).sublist.subset hc
    exact List.mem_reverse.mp this
  have hm65 : ∀ c ∈ s6, c ∈ s5 := by
    intro c hc
    exact (List.dropWhile_suffix _).sublist.subset hc
  have hm54 : ∀ c ∈ s5, c ∈ s4 := by
    intro c hc
    exact mem_collapseGo s4 false c hc
  have hkeep : ∀ c ∈ slugify text, keepWordOrHyphen c = true := by
    intro c hc
    exact List.of_mem_filter (hm54 c (hm65 c (hm76 c hc)))
  have hm43 : ∀ c ∈ s4, c ∈ s3 := fun c hc => List.mem_of_mem_filter hc
  have hm32 : ∀ c ∈ s3, c ∈ s2 ∨ c = '-' := fun c hc =>
    mem_wsRunsGo s2 false c hc
  have hm21 : ∀ c ∈ s2, c ∈ s1 := by
    intro c hc
    rw [hs2] at hc
    unfold jsTrim at hc
    rw [List.mem_reverse] at hc
    have := (List.dropWhile_suffix isJsWs).sublist.subset hc
    rw [List.mem_reverse] at this
    exact (List.dropWhile_suffix isJsWs).sublist.subset this
  have hlower : ∀ c ∈ slugify text, jsToLower c = c := by
    intro c hc
    rcases hm32 c (hm43 c (hm54 c (hm65 c (hm76 c hc)))) with h2 | h2
    · have h1 := hm21 c h2
      rw [hs1] at h1
      rcases List.mem_map.mp h1 with ⟨d, _, rfl⟩
      exact jsToLower_fixes d
    · subst h2; decide
  have hnt5 : NoTwoHyphens s5 := (collapseGo_noTwo s4 false).1
  have hnt6 : NoTwoHyphens s6 :=
    List.Chain'.suffix hnt5 (List.dropWhile_suffix _)
  have hrev6 : List.Chain'
      (flip (fun a b : Char => ¬(a = '-' ∧ b = '-'))) s6.reverse :=
    List.chain'_reverse.mpr hnt6
  have hm : List.Chain' (flip (fun a b : Char => ¬(a = '-' ∧ b = '-')))
      (s6.reverse.dropWhile (fun c => c = '-')) :=
    List.Chain'.suffix hrev6 (List.dropWhile_suffix _)
  have hnt7 : NoTwoHyphens (slugify text) := by
    rw [hs]
    exact List.chain'_reverse.mpr hm
  have hpre : slugify text <+: s6 := by
    rw [hs]
    have hsuf : (s6.reverse.dropWhile (fun c => decide (c = '-'))) <:+
        s6.reverse := List.dropWhile_suffix _
    have := reverseOfSuffix hsuf
    rwa [List.reverse_reverse] at this
  have hhead : (slugify text).head? ≠ some '-' := by
    intro hcon
    have h6 : s6.head? = some '-' := headSomeOfPre hpre '-' hcon
    have := head_false_of_dropWhile (fun c => decide (c = '-')) s5 '-' h6
    simp at this
  have hlast : ((slugify text).reverse).head? ≠ some '-' := by
    intro hcon
    rw [hs, List.reverse_reverse] at hcon
    have := head_false_of_dropWhile (fun c => decide (c = '-'))
      s6.reverse '-' hcon
    simp at this
  exact ⟨hkeep, hlower, hnt7, hhead, hlast⟩

/-- C5: slugify is idempotent: applying slugify to its own output
returns the output unchanged. -/
theorem slugify_idempotent (text : JStr) :
    slugify (slugify text) = slugify text := by
  obtain ⟨hkeep, hlower, hnt, hhead, hlast⟩ := slugify_facts text
  set s : JStr := slugify text with hsdef
  have hnows : ∀ c ∈ s, isJsWs c = false := by
    intro c hc
    cases hws : isJsWs c with
    | false => rfl
    | true =>
        have hk := hkeep c hc
        rw [ws_not_kept c hws] at hk
        cases hk
  have h1 : s.map jsToLower = s := map_id_of_mem s jsToLower hlower
  have h2 : jsTrim s = s := by
    unfold jsTrim
    rw [dropWhile_eq_self_of_all s isJsWs hnows]
    rw [dropWhile_eq_self_of_all s.reverse isJsWs
      (fun c hc => hnows c (List.mem_reverse.mp hc))]
    exact List.reverse_reverse s
  have h3 : replaceWsRuns s = s := wsRunsGo_eq_self s hnows false
  have h4 : s.filter keepWordOrHyphen = s := List.filter_eq_self.mpr hkeep
  have h5 : collapseHyphens s = s :=
    collapseGo_id s hnt false (fun hcon => by cases hcon)
  have h6 : s.dropWhile (fun c => c = '-') = s := by
    apply dropWhile_noop_of_head
    intro c hc
    cases hcc : decide (c = '-') with
    | false => rfl
    | true =>
        have : c = '-' := of_decide_eq_true hcc
        subst this
        exact absurd hc hhead
  have h7 : s.reverse.dropWhile (fun c => c = '-') = s.reverse := by
    apply dropWhile_noop_of_head
    intro c hc
    cases hcc : decide (c = '-') with
    | false => rfl
    | true =>
        have : c = '-' := of_decide_eq_true hcc
        subst this
        exact absurd hc hlast
  show (((collapseHyphens ((replaceWsRuns
        (jsTrim (s.map jsToLower))).filter
        keepWordOrHyphen)).dropWhile
      (fun c => c = '-')).reverse.dropWhile
    (fun c => c = '-')).reverse = s
  rw [h1, h2, h3, h4, h5, h6, h7, List.reverse_reverse]

/-! ### C9 -/

theorem int_log_1048576 : Int.log 1024 (1048576 : ℚ) = 2 := by
  have hcast : ((1048576 : ℕ) : ℚ) = (1048576 : ℚ) := by norm_num
  rw [← hcast, Int.log_natCast]
  have hnl : Nat.log 1024 1048576 = 2 :=
    Nat.log_eq_of_pow_le_of_lt_pow (by norm_num) (by norm_num)
  rw [hnl]
  rfl

theorem toFixed_two_one : toFixed 2 1 = ['1', '.', '0', '0'] := by
  have hn : ⌊(1 : ℚ) * 10 ^ 2 + 1 / 2⌋ = (100 : ℤ) := by
    rw [Int.floor_eq_iff]
    constructor <;> norm_num
  show (if (2 : ℕ) = 0 then intToStr ⌊(1 : ℚ) * 10 ^ 2 + 1 / 2⌋
    else
      (if ⌊(1 : ℚ) * 10 ^ 2 + 1 / 2⌋ < 0 then ['-'] else []) ++
        natToStr (⌊(1 : ℚ) * 10 ^ 2 + 1 / 2⌋.natAbs / 10 ^ 2) ++
        '.' :: padDigits 2 (⌊(1 : ℚ) * 10 ^ 2 + 1 / 2⌋.natAbs % 10 ^ 2)) =
      ['1', '.', '0', '0']
  rw [hn, if_neg (by norm_num)]
  decide

theorem parseFloat_one_point : parseFloatQ ['1', '.', '0', '0'] = some 1 := by
  have hstep : parseFloatQ ['1', '.', '0', '0'] =
      some (((digitsVal ['1'] : ℕ) : ℚ) +
        ((digitsVal ['0', '0'] : ℕ) : ℚ) / 10 ^ 2) := rfl
  rw [hstep]
  congr 1
  show ((1 : ℕ) : ℚ) + ((0 : ℕ) : ℚ) / 10 ^ 2 = 1
  norm_num

/-- C9: bytes(1048576) with the default 2 decimal places is the string
1 MB, and bytes(0) is the string 0 Bytes. -/
theorem bytes_values :
    bytes 1048576 2 = ['1', ' ', 'M', 'B'] ∧
    bytes 0 2 = ['0', ' ', 'B', 'y', 't', 'e', 's'] := by
  constructor
  · show (if (1048576 : ℚ) = 0 then ['0', ' ', 'B', 'y', 't', 'e', 's']
      else
        (match parseFloatQ (toFixed
            (if (2 : ℤ) < 0 then 0 else (2 : ℤ).toNat)
            ((1048576 : ℚ) / 1024 ^ Int.log 1024 (1048576 : ℚ))) with
         | some q => qToStr q
         | none => ['N', 'a', 'N']) ++
          ' ' :: bytesSizes.getD (Int.log 1024 (1048576 : ℚ)).toNat []) =
      ['1', ' ', 'M', 'B']
    rw [int_log_1048576, if_neg (by norm_num)]
    have hv : (1048576 : ℚ) / 1024 ^ (2 : ℤ) = 1 := by norm_num
    rw [hv]
    have hitn : ((2 : ℤ).toNat) = 2 := rfl
    have hif : (if (2 : ℤ) < 0 then (0 : ℕ) else (2 : ℤ).toNat) = 2 := rfl
    rw [hif]
    have hval : (match parseFloatQ (toFixed 2 1) with
        | some q => qToStr q
        | none => ['N', 'a', 'N']) = ['1'] := by
      rw [toFixed_two_one, parseFloat_one_point]
      show qToStr 1 = ['1']
      decide
    rw [hval, hitn]
    decide
  · rfl

/-! ### C2 -/

theorem fieldsGet_fieldsSet_self (f : JFields) (k : JStr) (v : JVal) :
    fieldsGet (fieldsSet f k v) k = some v := by
  induction f using fieldsInductionOn with
  | nil => simp [fieldsSet, fieldsGet]
  | cons k2 w t ih =>
      by_cases hk : k2 = k
      · simp [fieldsSet, fieldsGet, hk]
      · simp [fieldsSet, fieldsGet, hk, ih]

theorem fieldsGet_fieldsSet_ne (f : JFields) (k k2 : JStr) (v : JVal)
    (h : k ≠ k2) : fieldsGet (fieldsSet f k v) k2 = fieldsGet f k2 := by
  induction f using fieldsInductionOn with
  | nil => simp [fieldsSet, fieldsGet, h]
  | cons k3 w t ih =>
      by_cases hk : k3 = k
      · subst hk
        simp [fieldsSet, fieldsGet, h]
      · simp [fieldsSet, fieldsGet, hk, ih]

theorem fieldsSet_eq_append (f : JFields) (k : JStr) (v : JVal)
    (h : fieldsGet f k = none) :
    fieldsSet f k v = fieldsAppend f (.cons k v .nil) := by
  induction f using fieldsInductionOn with
  | nil => rfl
  | cons k2 w t ih =>
      simp only [fieldsGet] at h
      by_cases hk : k2 = k
      · rw [if_pos hk] at h; cases h
      · rw [if_neg hk] at h
        simp only [fieldsSet, fieldsAppend, if_neg hk, ih h]

theorem fieldsAppend_assoc (f g h : JFields) :
    fieldsAppend (fieldsAppend f g) h = fieldsAppend f (fieldsAppend g h) := by
  induction f using fieldsInductionOn with
  | nil => rfl
  | cons k v t ih => simp only [fieldsAppend, ih]

theorem fieldsAppend_nil (f : JFields) : fieldsAppend f .nil = f := by
  induction f using fieldsInductionOn with
  | nil => rfl
  | cons k v t ih => simp only [fieldsAppend, ih]

theorem fieldsGet_fieldsAppend (f g : JFields) (k : JStr) :
    fieldsGet (fieldsAppend f g) k =
      (fieldsGet f k).orElse (fun _ => fieldsGet g k) := by
  induction f using fieldsInductionOn with
  | nil => simp [fieldsAppend, fieldsGet, Option.orElse]
  | cons k2 v t ih =>
      by_cases hk : k2 = k
      · simp [fieldsAppend, fieldsGet, hk, Option.orElse]
      · simp [fieldsAppend, fieldsGet, hk, ih]

theorem mergeRule_none (merge2 : JVal → JVal → JVal) (ov : JVal) :
    mergeRule merge2 none ov = ov := by
  cases ov <;> rfl

theorem mergeKeyN_obj (merge2 : JVal → JVal → JVal) (prev : JFields)
    (k : JStr) (ov : JVal) :
    mergeKeyN merge2 (.vObj prev) k ov =
      .vObj (fieldsSet prev k (mergeRule merge2 (fieldsGet prev k) ov)) := by
  show (match jGet (.vObj prev) k, ov with
    | some (.vArr p), .vArr o =>
        jSet (.vObj prev) k (.vArr (concatSpread p o))
    | some (.vObj pf), .vObj og =>
        jSet (.vObj prev) k (merge2 (.vObj pf) (.vObj og))
    | _, _ => jSet (.vObj prev) k ov) = _
  show (match fieldsGet prev k, ov with
    | some (.vArr p), .vArr o =>
        jSet (.vObj prev) k (.vArr (concatSpread p o))
    | some (.vObj pf), .vObj og =>
        jSet (.vObj prev) k (merge2 (.vObj pf) (.vObj og))
    | _, _ => jSet (.vObj prev) k ov) = _
  cases hp : fieldsGet prev k with
  | none => cases ov <;> rfl
  | some pv => cases pv <;> cases ov <;> rfl

theorem copy_fold (merge2 : JVal → JVal → JVal) (fa : JFields) :
    ∀ g : JFields, fieldsKeysNodup fa = true →
      (∀ k v, fieldsGet fa k = some v → fieldsGet g k = none) →
      fieldsFold (fun acc k ov => mergeKeyN merge2 acc k ov) (.vObj g) fa =
        .vObj (fieldsAppend g fa) := by
  induction fa using fieldsInductionOn with
  | nil => intro g _ _; simp [fieldsFold, fieldsAppend_nil]
  | cons k v t ih =>
      intro g hnd hdisj
      simp only [fieldsKeysNodup, Bool.and_eq_true, Bool.not_eq_true] at hnd
      have hgk : fieldsGet g k = none :=
        hdisj k v (by simp [fieldsGet])
      simp only [fieldsFold]
      rw [mergeKeyN_obj, hgk, mergeRule_none,
        fieldsSet_eq_append g k v hgk]
      have htk : fieldsGet t k = none := by
        cases htk2 : fieldsGet t k with
        | none => rfl
        | some w => rw [htk2] at hnd; simp at hnd
      rw [ih (fieldsAppend g (.cons k v .nil)) hnd.2 ?_]
      · rw [fieldsAppend_assoc]
        rfl
      · intro k2 v2 hk2
        rw [fieldsGet_fieldsAppend]
        have hne : k ≠ k2 := by
          intro heq
          subst heq
          rw [htk] at hk2
          cases hk2
        rw [hdisj k2 v2 (by simp only [fieldsGet, if_neg hne]; exact hk2)]
        simp [fieldsGet, Option.orElse, if_neg hne]

theorem merge_fold_lookup (merge2 : JVal → JVal → JVal) (fb : JFields) :
    ∀ prev : JFields, fieldsKeysNodup fb = true → ∀ k,
      jGet (fieldsFold (fun acc k2 ov => mergeKeyN merge2 acc k2 ov)
        (.vObj prev) fb) k =
      (match fieldsGet fb k with
       | none => fieldsGet prev k
       | some ov => some (mergeRule merge2 (fieldsGet prev k) ov)) := by
  induction fb using fieldsInductionOn with
  | nil => intro prev _ k; simp [fieldsFold, fieldsGet, jGet]
  | cons kb ov t ih =>
      intro prev hnd k
      simp only [fieldsKeysNodup, Bool.and_eq_true, Bool.not_eq_true] at hnd
      have htk : fieldsGet t kb = none := by
        cases htk2 : fieldsGet t kb with
        | none => rfl
        | some w => rw [htk2] at hnd; simp at hnd
      simp only [fieldsFold]
      rw [mergeKeyN_obj]
      rw [ih _ hnd.2 k]
      by_cases hk : kb = k
      · subst hk
        rw [htk]
        simp only [fieldsGet, if_pos rfl]
        rw [fieldsGet_fieldsSet_self]
        simp
      · simp only [fieldsGet, if_neg hk]
        rw [fieldsGet_fieldsSet_ne prev kb k _ hk]

/-- C2 counterexample: deepMerge({a:[1]}, {a:[[2]]}) evaluates to
{a:[1,2]} because pVal.concat(...oVal) splices the array element [2];
the result is not deeply equal to {a:[1,[2]]}, the value the claim
(concatenation with each element preserved as-is) predicts. -/
theorem deepMerge_array_counterexample :
    deepMerge 5
        [.vObj (.cons ['a'] (.vArr (.cons (.vNum 1) .nil)) .nil),
         .vObj (.cons ['a']
           (.vArr (.cons (.vArr (.cons (.vNum 2) .nil)) .nil)) .nil)] =
      .vObj (.cons ['a'] (.vArr (.cons (.vNum 1) (.cons (.vNum 2) .nil)))
        .nil) ∧
    isEqual
        (.vObj (.cons ['a'] (.vArr (.cons (.vNum 1) (.cons (.vNum 2) .nil)))
          .nil))
        (.vObj (.cons ['a']
          (.vArr (.cons (.vNum 1) (.cons (.vArr (.cons (.vNum 2) .nil))
            .nil))) .nil)) = false :=
  ⟨rfl, rfl⟩

/-- C2 (amended): deepMerge combines its two object arguments
key-by-key: when both sides hold arrays the result is
pVal.concat(...oVal), that is, the left elements followed by the right
operand's elements with array-valued right elements spliced one level;
when both sides hold plain objects they are merged recursively; any
other conflict is resolved by the right-hand operand, and keys present
on only one side keep their value.  The concrete example
deepMerge({a:1,b:{c:2}}, {b:{d:3},e:4}) = {a:1,b:{c:2,d:3},e:4} holds
as stated. -/
theorem deepMerge_spec (fuel : Nat) (fa fb : JFields)
    (ha : fieldsKeysNodup fa = true) (hb : fieldsKeysNodup fb = true) :
    (∀ k, jGet (deepMerge fuel [.vObj fa, .vObj fb]) k =
      (match fieldsGet fb k with
       | none => fieldsGet fa k
       | some ov =>
          some (mergeRule (deepMergePairN fuel) (fieldsGet fa k) ov))) ∧
    deepMerge 5
        [.vObj (.cons ['a'] (.vNum 1)
           (.cons ['b'] (.vObj (.cons ['c'] (.vNum 2) .nil)) .nil)),
         .vObj (.cons ['b'] (.vObj (.cons ['d'] (.vNum 3) .nil))
           (.cons ['e'] (.vNum 4) .nil))] =
      .vObj (.cons ['a'] (.vNum 1)
        (.cons ['b'] (.vObj (.cons ['c'] (.vNum 2)
          (.cons ['d'] (.vNum 3) .nil)))
          (.cons ['e'] (.vNum 4) .nil))) := by
  constructor
  · intro k
    have hcopy : mergeStepN (deepMergePairN fuel) (.vObj .nil)
        (.vObj fa) = .vObj fa := by
      show fieldsFold
          (fun acc k2 ov => mergeKeyN (deepMergePairN fuel) acc k2 ov)
          (.vObj .nil) (keyEntries (.vObj fa)) = .vObj fa
      rw [show keyEntries (.vObj fa) = fa from rfl]
      rw [copy_fold (deepMergePairN fuel) fa .nil ha
        (fun _ _ _ => rfl)]
      rfl
    show jGet (mergeStepN (deepMergePairN fuel)
      (mergeStepN (deepMergePairN fuel) (.vObj .nil) (.vObj fa))
      (.vObj fb)) k = _
    rw [hcopy]
    show jGet (fieldsFold
        (fun acc k2 ov => mergeKeyN (deepMergePairN fuel) acc k2 ov)
        (.vObj fa) (keyEntries (.vObj fb))) k = _
    rw [show keyEntries (.vObj fb) = fb from rfl]
    exact merge_fold_lookup (deepMergePairN fuel) fb fa hb k
  · rfl

theorem deepMerge_spec_witness :
    jGet (deepMerge 5
        [.vObj (.cons ['a'] (.vNum 1)
           (.cons ['b'] (.vObj (.cons ['c'] (.vNum 2) .nil)) .nil)),
         .vObj (.cons ['b'] (.vObj (.cons ['d'] (.vNum 3) .nil))
           (.cons ['e'] (.vNum 4) .nil))]) ['b'] =
      (match fieldsGet (.cons ['b'] (.vObj (.cons ['d'] (.vNum 3) .nil))
          (.cons ['e'] (.vNum 4) .nil)) ['b'] with
       | none =>
          fieldsGet (.cons ['a'] (.vNum 1)
            (.cons ['b'] (.vObj (.cons ['c'] (.vNum 2) .nil)) .nil)) ['b']
       | some ov =>
          some (mergeRule (deepMergePairN 5)
            (fieldsGet (.cons ['a'] (.vNum 1)
              (.cons ['b'] (.vObj (.cons ['c'] (.vNum 2) .nil)) .nil))
              ['b']) ov)) :=
  (deepMerge_spec 5
    (.cons ['a'] (.vNum 1)
      (.cons ['b'] (.vObj (.cons ['c'] (.vNum 2) .nil)) .nil))
    (.cons ['b'] (.vObj (.cons ['d'] (.vNum 3) .nil))
      (.cons ['e'] (.vNum 4) .nil)) rfl rfl).1 ['b']

/-! ### C1 -/

theorem char_le_iff (a b : Char) : a ≤ b ↔ a.toNat ≤ b.toNat := Iff.rfl

theorem char_toNat_inj (a b : Char) (h : a.toNat = b.toNat) : a = b := by
  apply Char.ext
  exact UInt32.ext h

theorem isDigitChar_iff (c : Char) :
    isDigitChar c = true ↔ 48 ≤ c.toNat ∧ c.toNat ≤ 57 := by
  simp only [isDigitChar, decide_eq_true_eq]
  constructor
  · intro ⟨h1, h2⟩
    exact ⟨(char_le_iff '0' c).mp h1, (char_le_iff c '9').mp h2⟩
  · intro ⟨h1, h2⟩
    exact ⟨(char_le_iff '0' c).mpr h1, (char_le_iff c '9').mpr h2⟩

theorem isDigitChar_ofNat (d : Nat) (h : d < 10) :
    isDigitChar (Char.ofNat (48 + d)) = true := by
  rw [isDigitChar_iff, toNat_ofNat_valid _ (Or.inl (by omega))]
  omega

theorem natDigitsGo_ne_nil (fuel n : Nat) : natDigitsGo fuel n ≠ [] := by
  cases fuel with
  | zero => simp [natDigitsGo]
  | succ fuel =>
      simp only [natDigitsGo]
      by_cases h : n < 10
      · simp [h]
      · simp [h]

theorem natDigitsGo_digits (fuel : Nat) :
    ∀ n, ∀ c ∈ natDigitsGo fuel n, isDigitChar c = true := by
  induction fuel with
  | zero =>
      intro n c hc
      simp only [natDigitsGo, List.mem_singleton] at hc
      subst hc
      exact isDigitChar_ofNat _ (Nat.mod_lt _ (by omega))
  | succ fuel ih =>
      intro n c hc
      simp only [natDigitsGo] at hc
      by_cases h : n < 10
      · rw [if_pos h] at hc
        simp only [List.mem_singleton] at hc
        subst hc
        exact isDigitChar_ofNat _ h
      · rw [if_neg h] at hc
        rcases List.mem_append.mp hc with h2 | h2
        · exact ih _ c h2
        · simp only [List.mem_singleton] at h2
          subst h2
          exact isDigitChar_ofNat _ (Nat.mod_lt _ (by omega))

theorem natDigitsGo_head (fuel : Nat) :
    ∀ n, n ≠ 0 → n ≤ fuel → (natDigitsGo fuel n).head? ≠ some '0' := by
  induction fuel with
  | zero => intro n h1 h2; omega
  | succ fuel ih =>
      intro n h1 h2
      simp only [natDigitsGo]
      by_cases h : n < 10
      · rw [if_pos h]
        simp only [List.head?_cons]
        intro hcon
        have := Option.some.inj hcon
        have h0 : ('0' : Char).toNat = 48 := rfl
        have := congrArg Char.toNat this
        rw [toNat_ofNat_valid _ (Or.inl (by omega)), h0] at this
        omega
      · rw [if_neg h]
        have hne := natDigitsGo_ne_nil fuel (n / 10)
        cases hd : natDigitsGo fuel (n / 10) with
        | nil => exact absurd hd hne
        | cons x xs =>
            simp only [List.cons_append, List.head?_cons]
            have := ih (n / 10) (by omega) (by omega)
            rw [hd] at this
            simpa using this

theorem digitsVal_append_one (l : JStr) (c : Char) :
    digitsVal (l ++ [c]) = digitsVal l * 10 + (c.toNat - 48) := by
  simp [digitsVal, List.foldl_append]

theorem natDigitsGo_val (fuel : Nat) :
    ∀ n, n ≤ fuel → digitsVal (natDigitsGo fuel n) = n := by
  induction fuel with
  | zero =>
      intro n h
      have : n = 0 := by omega
      subst this
      simp only [natDigitsGo, digitsVal, List.foldl]
      rw [toNat_ofNat_valid _ (Or.inl (by omega))]
  | succ fuel ih =>
      intro n h
      simp only [natDigitsGo]
      by_cases hlt : n < 10
      · rw [if_pos hlt]
        simp only [digitsVal, List.foldl]
        rw [toNat_ofNat_valid _ (Or.inl (by omega))]
        omega
      · rw [if_neg hlt]
        rw [digitsVal_append_one, ih (n / 10) (by omega),
          toNat_ofNat_valid _ (Or.inl (by omega))]
        omega

theorem natToStr_ne_nil (n : Nat) : natToStr n ≠ [] := natDigitsGo_ne_nil n n

theorem natToStr_digits (n : Nat) :
    ∀ c ∈ natToStr n, isDigitChar c = true := natDigitsGo_digits n n

theorem natToStr_val (n : Nat) : digitsVal (natToStr n) = n :=
  natDigitsGo_val n n le_rfl

theorem natToStr_zero : natToStr 0 = ['0'] := rfl

theorem parseIndex_natToStr (n : Nat) : parseIndex (natToStr n) = some n := by
  unfold parseIndex
  rw [if_pos, natToStr_val]
  refine ⟨natToStr_ne_nil n, natToStr_digits n, ?_⟩
  by_cases h : n = 0
  · subst h; left; rfl
  · right
    exact natDigitsGo_head n n h le_rfl

theorem natToStr_inj (m n : Nat) (h : natToStr m = natToStr n) : m = n := by
  have := congrArg digitsVal h
  rwa [natToStr_val, natToStr_val] at this

theorem isJsWs_toNat (c : Char) (h : isJsWs c = true) : c.toNat ≤ 32 := by
  simp only [isJsWs, Bool.or_eq_true, beq_iff_eq] at h
  rcases h with ((((h | h) | h) | h) | h) | h <;> subst h <;> decide

theorem isJsWs_of_digit (c : Char) (h : isDigitChar c = true) :
    isJsWs c = false := by
  cases hw : isJsWs c with
  | false => rfl
  | true =>
      have h1 := isJsWs_toNat c hw
      rw [isDigitChar_iff] at h
      omega

theorem takeWhile_eq_self_of_all {α : Type} (l : List α) (p : α → Bool)
    (h : ∀ c ∈ l, p c = true) : l.takeWhile p = l := by
  induction l with
  | nil => rfl
  | cons x xs ih =>
      rw [List.takeWhile_cons_of_pos (h x (List.mem_cons_self x xs))]
      rw [ih (fun c hc => h c (List.mem_cons_of_mem x hc))]

theorem trim_eq_self_of_digits (l : JStr)
    (h : ∀ c ∈ l, isDigitChar c = true) :
    ((l.dropWhile isJsWs).reverse.dropWhile isJsWs).reverse = l := by
  rw [dropWhile_eq_self_of_all l isJsWs
    (fun c hc => isJsWs_of_digit c (h c hc))]
  rw [dropWhile_eq_self_of_all l.reverse isJsWs
    (fun c hc => isJsWs_of_digit c (h c (List.mem_reverse.mp hc)))]
  exact List.reverse_reverse l

theorem decimalBody_of_digits (l : JStr) (hne : l ≠ [])
    (h : ∀ c ∈ l, isDigitChar c = true) : decimalBody l = true := by
  have ht : l.takeWhile isDigitChar = l := takeWhile_eq_self_of_all l _ h
  simp only [decimalBody, ht, List.drop_length]
  simp [hne]

theorem jsNumericStr_natToStr (n : Nat) :
    jsNumericStr (natToStr n) = true := by
  obtain ⟨c, cs, hc⟩ := List.exists_cons_of_ne_nil (natToStr_ne_nil n)
  have hd : ∀ x ∈ natToStr n, isDigitChar x = true := natToStr_digits n
  have htrim := trim_eq_self_of_digits (natToStr n) hd
  rw [hc] at htrim hd ⊢
  have hcd : isDigitChar c = true := hd c (List.mem_cons_self c cs)
  rw [isDigitChar_iff] at hcd
  have h1 : c ≠ '-' := by
    intro he; subst he; revert hcd; decide
  have h2 : c ≠ '+' := by
    intro he; subst he; revert hcd; decide
  simp only [jsNumericStr, htrim, if_neg h1, if_neg h2]
  have hdb := decimalBody_of_digits (c :: cs) (by simp) hd
  simp [unsignedNum, hdb]

theorem jsNumericStr_nil : jsNumericStr [] = true := rfl

theorem fieldsSet_fieldsSet_self (f : JFields) (k : JStr) (x y : JVal) :
    fieldsSet (fieldsSet f k x) k y = fieldsSet f k y := by
  induction f using fieldsInductionOn with
  | nil => simp [fieldsSet]
  | cons k2 w t ih =>
      by_cases hk : k2 = k
      · simp [fieldsSet, hk]
      · simp [fieldsSet, hk, ih]

theorem fieldsSet_same (f : JFields) (k : JStr) (v : JVal)
    (h : fieldsGet f k = some v) : fieldsSet f k v = f := by
  induction f using fieldsInductionOn with
  | nil => simp [fieldsGet] at h
  | cons k2 w t ih =>
      simp only [fieldsGet] at h
      by_cases hk : k2 = k
      · rw [if_pos hk] at h
        simp only [fieldsSet, if_pos hk]
        rw [Option.some.inj h]
      · rw [if_neg hk] at h
        simp only [fieldsSet, if_neg hk, ih h]

theorem listGet_listSet_self (a : JList) (i : Nat) (v : JVal) :
    listGet (listSet a i v) i = some v := by
  induction i generalizing a with
  | zero => cases a <;> rfl
  | succ i ih => cases a <;> simp [listSet, listGet, ih]

theorem listSet_listSet_self (a : JList) (i : Nat) (x y : JVal) :
    listSet (listSet a i x) i y = listSet a i y := by
  induction i generalizing a with
  | zero => cases a <;> rfl
  | succ i ih => cases a <;> simp [listSet, ih]

theorem listSet_same (a : JList) (i : Nat) (v : JVal)
    (h : listGet a i = some v) : listSet a i v = a := by
  induction i generalizing a with
  | zero =>
      cases a with
      | nil => simp [listGet] at h
      | cons w t =>
          simp only [listGet] at h
          simp [listSet, Option.some.inj h]
  | succ i ih =>
      cases a with
      | nil => simp [listGet] at h
      | cons w t =>
          simp only [listGet] at h
          simp [listSet, ih t h]

theorem listGet_listLen (a : JList) : listGet a (listLen a) = none := by
  induction a using listInductionOn with
  | nil => rfl
  | cons v t ih => simpa [listGet, listLen] using ih

theorem listSet_listLen (a : JList) (v : JVal) :
    listSet a (listLen a) v = listAppend a (.cons v .nil) := by
  induction a using listInductionOn with
  | nil => rfl
  | cons w t ih => simp [listSet, listLen, listAppend, ih]

theorem listLen_listAppend (a b : JList) :
    listLen (listAppend a b) = listLen a + listLen b := by
  induction a using listInductionOn with
  | nil => simp [listAppend, listLen]
  | cons w t ih => simp [listAppend, listLen, ih]; omega

theorem listAppend_assoc (a b c : JList) :
    listAppend (listAppend a b) c = listAppend a (listAppend b c) := by
  induction a using listInductionOn with
  | nil => rfl
  | cons w t ih => simp [listAppend, ih]

theorem listAppend_nil (a : JList) : listAppend a .nil = a := by
  induction a using listInductionOn with
  | nil => rfl
  | cons w t ih => simp [listAppend, ih]

theorem jGet_arr_parseIndex (a : JList) (k : JStr) (c : JVal)
    (h : jGet (.vArr a) k = some c) :
    ∃ i, parseIndex k = some i ∧ listGet a i = some c := by
  simp only [jGet] at h
  cases hp : parseIndex k with
  | none => rw [hp] at h; cases h
  | some i => rw [hp] at h; exact ⟨i, rfl, h⟩

theorem jSet_jSet_self (c : JVal) (k : JStr) (x y : JVal) :
    jSet (jSet c k x) k y = jSet c k y := by
  cases c with
  | vObj f => simp [jSet, fieldsSet_fieldsSet_self]
  | vArr a =>
      simp only [jSet]
      cases hp : parseIndex k with
      | none => simp [jSet, hp]
      | some i => simp [jSet, hp, listSet_listSet_self]
  | vNull => rfl
  | vBool b => rfl
  | vNum q => rfl
  | vStr s => rfl

theorem jGet_jSet_obj (f : JFields) (k : JStr) (v : JVal) :
    jGet (jSet (.vObj f) k v) k = some v := by
  simp [jGet, jSet, fieldsGet_fieldsSet_self]

theorem jGet_jSet_arr (a : JList) (k : JStr) (i : Nat) (v : JVal)
    (hp : parseIndex k = some i) :
    jGet (jSet (.vArr a) k v) k = some v := by
  simp [jGet, jSet, hp, listGet_listSet_self]

theorem jSet_same (c : JVal) (k : JStr) (v : JVal)
    (h : jGet c k = some v) : jSet c k v = c := by
  cases c with
  | vObj f => simp only [jGet] at h; simp [jSet, fieldsSet_same f k v h]
  | vArr a =>
      obtain ⟨i, hp, hg⟩ := jGet_arr_parseIndex a k v h
      simp [jSet, hp, listSet_same a i v hg]
  | vNull => cases h
  | vBool b => cases h
  | vNum q => cases h
  | vStr s => cases h

theorem splitOnChar_ne_nil (sep : Char) (s : JStr) :
    splitOnChar sep s ≠ [] := by
  cases s with
  | nil => simp [splitOnChar]
  | cons c cs =>
      simp only [splitOnChar]
      cases splitOnChar sep cs with
      | nil => simp
      | cons h t =>
          by_cases hc : c = sep
          · simp [hc]
          · simp [hc]

theorem splitOnChar_of_not_mem (sep : Char) (s : JStr)
    (h : ∀ c ∈ s, c ≠ sep) : splitOnChar sep s = [s] := by
  induction s with
  | nil => rfl
  | cons c cs ih =>
      simp only [splitOnChar]
      rw [ih (fun x hx => h x (List.mem_cons_of_mem c hx))]
      simp [h c (List.mem_cons_self c cs)]

theorem splitOnChar_append (sep : Char) (s r : JStr)
    (h : ∀ c ∈ s, c ≠ sep) :
    splitOnChar sep (s ++ sep :: r) = s :: splitOnChar sep r := by
  induction s with
  | nil =>
      obtain ⟨x, xs, hx⟩ :=
        List.exists_cons_of_ne_nil (splitOnChar_ne_nil sep r)
      simp only [List.nil_append, splitOnChar, hx, if_pos rfl]
      simp
  | cons c cs ih =>
      simp only [List.cons_append, splitOnChar, List.append_eq]
      rw [ih (fun x hx => h x (List.mem_cons_of_mem c hx))]
      simp [h c (List.mem_cons_self c cs)]

theorem splitOnChar_pathJoin (sep : Char) (p : JStr) (ps : List JStr)
    (h : ∀ piece ∈ p :: ps, ∀ c ∈ piece, c ≠ sep) :
    splitOnChar sep (pathJoin sep (p :: ps)) = p :: ps := by
  induction ps generalizing p with
  | nil =>
      simp only [pathJoin, segsJoin, List.append_nil]
      exact splitOnChar_of_not_mem sep p
        (h p (List.mem_cons_self p []))
  | cons q ps ih =>
      have hstep : pathJoin sep (p :: q :: ps) =
          p ++ sep :: pathJoin sep (q :: ps) := by
        simp [pathJoin, segsJoin]
      rw [hstep,
        splitOnChar_append sep p _ (h p (List.mem_cons_self p (q :: ps))),
        ih q (fun piece hp => h piece (List.mem_cons_of_mem p hp))]

theorem pathJoin_inj (sep : Char) (p q : JStr) (ps qs : List JStr)
    (hp : ∀ piece ∈ p :: ps, ∀ c ∈ piece, c ≠ sep)
    (hq : ∀ piece ∈ q :: qs, ∀ c ∈ piece, c ≠ sep)
    (h : pathJoin sep (p :: ps) = pathJoin sep (q :: qs)) :
    p :: ps = q :: qs := by
  have h1 := splitOnChar_pathJoin sep p ps hp
  have h2 := splitOnChar_pathJoin sep q qs hq
  rw [← h1, ← h2, h]

theorem insertEntry_dot (r : JVal) (kv : JStr × JVal) :
    insertEntry '.' r kv = insSegs r (splitOnChar '.' kv.1) kv.2 := by
  simp only [insertEntry, insSegs]
  rw [map_id_of_mem kv.1 _ (fun c _ => by by_cases hc : c = '.' <;> simp [hc])]

theorem unflatten_eq_insertAll (flat : List (JStr × JVal)) :
    unflatten flat '.' =
      insertAll (.vObj .nil)
        (flat.map (fun kv => (splitOnChar '.' kv.1, kv.2))) := by
  simp only [unflatten, insertAll, List.foldlM_map]
  congr 1
  funext r kv
  exact insertEntry_dot r kv

theorem segContainer_isContainer (segs : List JStr) :
    isContainer (segContainer segs) = true := by
  cases segs with
  | nil => rfl
  | cons r rest =>
      simp only [segContainer]
      by_cases h : jsNumericStr r = true <;> simp [h, isContainer]

theorem scaffold_obj (segs : List JStr) (f : JFields) :
    ∃ g, scaffold (.vObj f) segs = .vObj g := by
  cases segs with
  | nil => exact ⟨f, rfl⟩
  | cons k rest =>
      simp only [scaffold]
      cases hv : jGet (.vObj f) k with
      | none => exact ⟨_, rfl⟩
      | some v =>
          by_cases ht : truthy v = true
          · by_cases hc : isContainer v = true
            · simp only [if_pos ht, if_pos hc]
              exact ⟨_, rfl⟩
            · simp only [if_pos ht, if_neg hc]
              exact ⟨f, rfl⟩
          · simp only [if_neg ht]
            exact ⟨_, rfl⟩

theorem scaffold_arr (segs : List JStr) (a : JList) :
    ∃ b, scaffold (.vArr a) segs = .vArr b := by
  cases segs with
  | nil => exact ⟨a, rfl⟩
  | cons k rest =>
      simp only [scaffold]
      cases hv : jGet (.vArr a) k with
      | none =>
          simp only [jSet]
          cases parseIndex k <;> exact ⟨_, rfl⟩
      | some v =>
          by_cases ht : truthy v = true
          · by_cases hc : isContainer v = true
            · simp only [if_pos ht, if_pos hc, jSet]
              cases parseIndex k <;> exact ⟨_, rfl⟩
            · simp only [if_pos ht, if_neg hc]
              exact ⟨a, rfl⟩
          · simp only [if_neg ht, jSet]
            cases parseIndex k <;> exact ⟨_, rfl⟩

theorem scaffold_isContainer (c : JVal) (segs : List JStr)
    (h : isContainer c = true) :
    isContainer (scaffold c segs) = true := by
  cases c with
  | vArr a => obtain ⟨b, hb⟩ := scaffold_arr segs a; rw [hb]; rfl
  | vObj f => obtain ⟨g, hg⟩ := scaffold_obj segs f; rw [hg]; rfl
  | vNull => cases h
  | vBool b => cases h
  | vNum q => cases h
  | vStr s => cases h

theorem isObjectTypeof_of_isContainer (c : JVal) (h : isContainer c = true) :
    isObjectTypeof c = true := by
  cases c <;> first | rfl | cases h

theorem truthy_of_isContainer (c : JVal) (h : isContainer c = true) :
    truthy c = true := by
  cases c <;> first | rfl | cases h

theorem pathSet_obj (f : JFields) (segs : List JStr) (v r : JVal)
    (h : pathSet (.vObj f) segs v = .ok r) : ∃ g, r = .vObj g := by
  cases segs with
  | nil =>
      simp only [pathSet] at h
      exact ⟨f, (Except.ok.inj h).symm⟩
  | cons k rest =>
      cases rest with
      | nil =>
          simp only [pathSet] at h
          exact ⟨_, (Except.ok.inj h).symm⟩
      | cons k2 rest2 =>
          simp only [pathSet] at h
          cases hin : pathSet
              (match jGet (.vObj f) k with
               | some x => if isObjectTypeof x then x else .vObj .nil
               | none => .vObj .nil) (k2 :: rest2) v with
          | error e => rw [hin] at h; cases h
          | ok r2 =>
              rw [hin] at h
              simp only [Except.map] at h
              exact ⟨_, (Except.ok.inj h).symm⟩

theorem pathSet_arr (a : JList) (segs : List JStr) (v r : JVal)
    (h : pathSet (.vArr a) segs v = .ok r) : ∃ b, r = .vArr b := by
  cases segs with
  | nil =>
      simp only [pathSet] at h
      exact ⟨a, (Except.ok.inj h).symm⟩
  | cons k rest =>
      cases rest with
      | nil =>
          simp only [pathSet] at h
          have hr := (Except.ok.inj h).symm
          subst hr
          simp only [jSet]
          cases parseIndex k <;> exact ⟨_, rfl⟩
      | cons k2 rest2 =>
          simp only [pathSet] at h
          cases hin : pathSet
              (match jGet (.vArr a) k with
               | some x => if isObjectTypeof x then x else .vObj .nil
               | none => .vObj .nil) (k2 :: rest2) v with
          | error e => rw [hin] at h; cases h
          | ok r2 =>
              rw [hin] at h
              simp only [Except.map] at h
              have hr := (Except.ok.inj h).symm
              subst hr
              simp only [jSet]
              cases parseIndex k <;> exact ⟨_, rfl⟩

theorem insSegs_obj (f : JFields) (segs : List JStr) (v r : JVal)
    (h : insSegs (.vObj f) segs v = .ok r) : ∃ g, r = .vObj g := by
  simp only [insSegs] at h
  obtain ⟨g, hg⟩ := scaffold_obj segs f
  rw [hg] at h
  exact pathSet_obj g segs v r h

theorem insSegs_arr (a : JList) (segs : List JStr) (v r : JVal)
    (h : insSegs (.vArr a) segs v = .ok r) : ∃ b, r = .vArr b := by
  simp only [insSegs] at h
  obtain ⟨b, hb⟩ := scaffold_arr segs a
  rw [hb] at h
  exact pathSet_arr b segs v r h

theorem pathSet_single (acc : JVal) (k : JStr) (v : JVal)
    (h : isContainer acc = true) :
    pathSet acc [k] v = .ok (jSet acc k v) := by
  cases acc with
  | vObj f => simp only [pathSet]
  | vArr a => simp only [pathSet]
  | vNull => cases h
  | vBool b => cases h
  | vNum q => cases h
  | vStr s => cases h

theorem pathSet_single_jSet (acc : JVal) (k : JStr) (X v : JVal)
    (h : isContainer acc = true) :
    pathSet (jSet acc k X) [k] v = .ok (jSet acc k v) := by
  cases acc with
  | vObj f =>
      simp only [jSet, pathSet, fieldsSet_fieldsSet_self]
  | vArr a =>
      simp only [jSet]
      cases hp : parseIndex k with
      | none => simp only [pathSet, jSet, hp]
      | some i => simp only [pathSet, jSet, hp, listSet_listSet_self]
  | vNull => cases h
  | vBool b => cases h
  | vNum q => cases h
  | vStr s => cases h

theorem insSegs_single (acc : JVal) (k : JStr) (v : JVal)
    (h : isContainer acc = true) :
    insSegs acc [k] v = .ok (jSet acc k v) := by
  simp only [insSegs, scaffold]
  cases hv : jGet acc k with
  | none => exact pathSet_single_jSet acc k _ v h
  | some w =>
      dsimp only
      by_cases ht : truthy w = true
      · by_cases hc : isContainer w = true
        · rw [if_pos ht, if_pos hc]
          exact pathSet_single_jSet acc k _ v h
        · rw [if_pos ht, if_neg hc]
          exact pathSet_single acc k v h
      · rw [if_neg ht]
        exact pathSet_single_jSet acc k _ v h

theorem exceptMap_congr {ε α β : Type} (x : Except ε α) (f g : α → β)
    (h : ∀ a, f a = g a) : x.map f = x.map g := by
  cases x <;> simp [Except.map, h]

theorem jGet_jSet_self_of_get (acc : JVal) (k : JStr) (c X : JVal)
    (hget : jGet acc k = some c) :
    jGet (jSet acc k X) k = some X := by
  cases acc with
  | vObj f => exact jGet_jSet_obj f k X
  | vArr a =>
      obtain ⟨i, hp, _⟩ := jGet_arr_parseIndex a k c hget
      exact jGet_jSet_arr a k i X hp
  | vNull => cases hget
  | vBool b => cases hget
  | vNum q => cases hget
  | vStr s => cases hget

theorem jGet_jSet_self_of_pre (acc : JVal) (k : JStr) (X : JVal)
    (hP : (∃ f, acc = .vObj f) ∨
      ((∃ a, acc = .vArr a) ∧ (parseIndex k).isSome = true)) :
    jGet (jSet acc k X) k = some X := by
  rcases hP with ⟨f, hf⟩ | ⟨⟨a, ha⟩, hp⟩
  · subst hf; exact jGet_jSet_obj f k X
  · subst ha
    cases hpi : parseIndex k with
    | none => rw [hpi] at hp; cases hp
    | some i => exact jGet_jSet_arr a k i X hpi

theorem pathSet_descend (acc : JVal) (k : JStr) (X v : JVal) (r1 : JStr)
    (rs : List JStr) (hX : isContainer X = true)
    (hget : jGet (jSet acc k X) k = some X)
    (hacc : isContainer acc = true) :
    pathSet (jSet acc k X) (k :: r1 :: rs) v =
      (pathSet X (r1 :: rs) v).map (jSet acc k) := by
  have hobj := isObjectTypeof_of_isContainer X hX
  cases acc with
  | vObj f =>
      simp only [jSet] at hget ⊢
      simp only [pathSet, hget]
      rw [if_pos hobj]
      exact exceptMap_congr _ _ _
        (fun r => by simp only [jSet, fieldsSet_fieldsSet_self])
  | vArr a =>
      simp only [jSet] at hget ⊢
      cases hp : parseIndex k with
      | none =>
          rw [hp] at hget
          simp only [jGet] at hget
          rw [hp] at hget
          cases hget
      | some i =>
          rw [hp] at hget
          dsimp only at hget ⊢
          simp only [pathSet, hget]
          rw [if_pos hobj]
          refine exceptMap_congr _ _ _ (fun r => ?_)
          simp only [jSet, hp, listSet_listSet_self]
  | vNull => cases hacc
  | vBool b => cases hacc
  | vNum q => cases hacc
  | vStr s => cases hacc

theorem insSegs_descend_some (acc : JVal) (k : JStr) (c v : JVal)
    (r1 : JStr) (rs : List JStr)
    (hget : jGet acc k = some c) (ht : truthy c = true)
    (hc : isContainer c = true) (hacc : isContainer acc = true) :
    insSegs acc (k :: r1 :: rs) v =
      (insSegs c (r1 :: rs) v).map (jSet acc k) := by
  simp only [insSegs, scaffold, hget]
  rw [if_pos ht, if_pos hc]
  exact pathSet_descend acc k (scaffold c (r1 :: rs)) v r1 rs
    (scaffold_isContainer c _ hc)
    (jGet_jSet_self_of_get acc k c _ hget) hacc

theorem insSegs_descend_none (acc : JVal) (k : JStr) (v : JVal)
    (r1 : JStr) (rs : List JStr)
    (hget : jGet acc k = none)
    (hP : (∃ f, acc = .vObj f) ∨
      ((∃ a, acc = .vArr a) ∧ (parseIndex k).isSome = true)) :
    insSegs acc (k :: r1 :: rs) v =
      (insSegs (segContainer (r1 :: rs)) (r1 :: rs) v).map (jSet acc k) := by
  have hacc : isContainer acc = true := by
    rcases hP with ⟨f, hf⟩ | ⟨⟨a, ha⟩, _⟩
    · subst hf; rfl
    · subst ha; rfl
  simp only [insSegs, scaffold, hget]
  exact pathSet_descend acc k
    (scaffold (segContainer (r1 :: rs)) (r1 :: rs)) v r1 rs
    (scaffold_isContainer _ _ (segContainer_isContainer (r1 :: rs)))
    (jGet_jSet_self_of_pre acc k _ hP) hacc

theorem jSet_isContainer (acc : JVal) (k : JStr) (X : JVal)
    (h : isContainer acc = true) : isContainer (jSet acc k X) = true := by
  cases acc with
  | vObj f => rfl
  | vArr a =>
      simp only [jSet]
      cases parseIndex k <;> rfl
  | vNull => cases h
  | vBool b => cases h
  | vNum q => cases h
  | vStr s => cases h

theorem insSegs_isContainer (c : JVal) (segs : List JStr) (v r : JVal)
    (hc : isContainer c = true) (h : insSegs c segs v = .ok r) :
    isContainer r = true := by
  cases c with
  | vObj f =>
      obtain ⟨g, hg⟩ := insSegs_obj f segs v r h
      rw [hg]; rfl
  | vArr a =>
      obtain ⟨b, hb⟩ := insSegs_arr a segs v r h
      rw [hb]; rfl
  | vNull => cases hc
  | vBool b => cases hc
  | vNum q => cases hc
  | vStr s => cases hc

theorem insertAll_descend_some (inner : List (List JStr × JVal)) :
    ∀ (acc c : JVal) (k : JStr),
    jGet acc k = some c → truthy c = true → isContainer c = true →
    isContainer acc = true →
    (∀ e ∈ inner, ∃ r1 rs, e.1 = r1 :: rs) →
    insertAll acc (inner.map (fun e => (k :: e.1, e.2))) =
      (insertAll c inner).map (jSet acc k) := by
  induction inner with
  | nil =>
      intro acc c k hget ht hc hacc hpaths
      simp only [List.map_nil, insertAll, List.foldlM_nil]
      simp only [pure, Except.pure, Except.map]
      rw [jSet_same acc k c hget]
  | cons e inner ih =>
      intro acc c k hget ht hc hacc hpaths
      obtain ⟨r1, rs, he1⟩ := hpaths e (List.mem_cons_self e inner)
      simp only [List.map_cons, insertAll, List.foldlM_cons]
      rw [he1, insSegs_descend_some acc k c e.2 r1 rs hget ht hc hacc]
      cases hres : insSegs c (r1 :: rs) e.2 with
      | error err => simp [Except.map, Except.bind, bind]
      | ok r =>
          have hcr : isContainer r = true :=
            insSegs_isContainer c _ _ r hc hres
          have htr := truthy_of_isContainer r hcr
          have hget' : jGet (jSet acc k r) k = some r :=
            jGet_jSet_self_of_get acc k c r hget
          have hacc' := jSet_isContainer acc k r hacc
          simp only [Except.map, Except.bind, bind]
          have := ih (jSet acc k r) r k hget' htr hcr hacc'
            (fun x hx => hpaths x (List.mem_cons_of_mem _ hx))
          simp only [insertAll] at this
          rw [this]
          exact exceptMap_congr _ _ _ (fun w => jSet_jSet_self acc k r w)

theorem insertAll_descend_none (inner : List (List JStr × JVal))
    (e : List JStr × JVal) (acc : JVal) (k : JStr) (r1 : JStr)
    (rs : List JStr) (he1 : e.1 = r1 :: rs)
    (hget : jGet acc k = none)
    (hP : (∃ f, acc = .vObj f) ∨
      ((∃ a, acc = .vArr a) ∧ (parseIndex k).isSome = true))
    (hpaths : ∀ x ∈ inner, ∃ q1 qs, x.1 = q1 :: qs) :
    insertAll acc ((e :: inner).map (fun x => (k :: x.1, x.2))) =
      (insertAll (segContainer e.1) (e :: inner)).map (jSet acc k) := by
  have hacc : isContainer acc = true := by
    rcases hP with ⟨f, hf⟩ | ⟨⟨a, ha⟩, _⟩
    · subst hf; rfl
    · subst ha; rfl
  simp only [List.map_cons, insertAll, List.foldlM_cons]
  rw [he1, insSegs_descend_none acc k e.2 r1 rs hget hP]
  cases hres : insSegs (segContainer (r1 :: rs)) (r1 :: rs) e.2 with
  | error err => simp [Except.map, Except.bind, bind]
  | ok r =>
      have hCc := segContainer_isContainer (r1 :: rs)
      have hcr : isContainer r = true :=
        insSegs_isContainer _ _ _ r hCc hres
      have htr := truthy_of_isContainer r hcr
      have hget' : jGet (jSet acc k r) k = some r :=
        jGet_jSet_self_of_pre acc k r hP
      have hacc' := jSet_isContainer acc k r hacc
      simp only [Except.map, Except.bind, bind]
      have := insertAll_descend_some inner (jSet acc k r) r k hget' htr
        hcr hacc' hpaths
      simp only [insertAll] at this
      rw [this]
      exact exceptMap_congr _ _ _ (fun w => jSet_jSet_self acc k r w)

theorem relArr_paths (l : JList) :
    ∀ i, ∀ e ∈ relArr l i, ∃ q1 qs, e.1 = q1 :: qs := by
  induction l using listInductionOn with
  | nil => intro i e he; simp [relArr] at he
  | cons v t ih =>
      intro i e he
      simp only [relArr, List.mem_append] at he
      rcases he with he | he
      · obtain ⟨x, _, hxe⟩ := List.mem_map.mp he
        exact ⟨natToStr i, x.1, by rw [← hxe]⟩
      · exact ih (i + 1) e he

theorem relObj_paths (f : JFields) :
    ∀ e ∈ relObj f, ∃ q1 qs, e.1 = q1 :: qs := by
  induction f using fieldsInductionOn with
  | nil => intro e he; simp [relObj] at he
  | cons k v t ih =>
      intro e he
      simp only [relObj, List.mem_append] at he
      rcases he with he | he
      · obtain ⟨x, _, hxe⟩ := List.mem_map.mp he
        exact ⟨k, x.1, by rw [← hxe]⟩
      · exact ih e he

theorem relEntries_ne_nil (t : JVal) : relEntries t ≠ [] := by
  refine @JVal.indV (fun t => relEntries t ≠ [])
    (fun l => ∀ i, l ≠ .nil → relArr l i ≠ [])
    (fun f => f ≠ .nil → relObj f ≠ []) ?_ ?_ ?_ ?_ ?_ ?_ ?_ ?_ ?_ ?_ t
  · simp [relEntries]
  · intro b; simp [relEntries]
  · intro q; simp [relEntries]
  · intro s; simp [relEntries]
  · intro a ha
    cases a with
    | nil => simp [relEntries]
    | cons v tl =>
        simp only [relEntries]
        exact ha 0 (by simp)
  · intro f hf
    cases f with
    | nil => simp [relEntries]
    | cons k v tl =>
        simp only [relEntries]
        exact hf (by simp)
  · intro i h; exact absurd rfl h
  · intro v tl hv htl i _
    simp only [relArr]
    intro hcon
    rcases List.append_eq_nil.mp hcon with ⟨h1, _⟩
    exact hv (List.map_eq_nil.mp h1)
  · intro h; exact absurd rfl h
  · intro k v tl hv htl _
    simp only [relObj]
    intro hcon
    rcases List.append_eq_nil.mp hcon with ⟨h1, _⟩
    exact hv (List.map_eq_nil.mp h1)

theorem insertAll_append (acc : JVal) (l1 l2 : List (List JStr × JVal)) :
    insertAll acc (l1 ++ l2) =
      insertAll acc l1 >>= fun r => insertAll r l2 := by
  simp [insertAll, List.foldlM_append]

theorem insertAll_single_leaf (acc : JVal) (k : JStr) (t : JVal)
    (hacc : isContainer acc = true) :
    insertAll acc [([k], t)] = .ok (jSet acc k t) := by
  simp only [insertAll, List.foldlM_cons, List.foldlM_nil]
  rw [insSegs_single acc k t hacc]
  rfl

theorem pre_facts (acc : JVal) (k : JStr)
    (hP : (∃ f, acc = .vObj f ∧ fieldsGet f k = none) ∨
      (∃ a, acc = .vArr a ∧ k = natToStr (listLen a))) :
    isContainer acc = true ∧ jGet acc k = none ∧
      ((∃ f, acc = .vObj f) ∨
        ((∃ a, acc = .vArr a) ∧ (parseIndex k).isSome = true)) := by
  rcases hP with ⟨f, hf, hg⟩ | ⟨a, ha, hk⟩
  · subst hf
    exact ⟨rfl, hg, Or.inl ⟨f, rfl⟩⟩
  · subst ha; subst hk
    refine ⟨rfl, ?_, Or.inr ⟨⟨a, rfl⟩, ?_⟩⟩
    · simp [jGet, parseIndex_natToStr, listGet_listLen]
    · simp [parseIndex_natToStr]

theorem insertAll_relObj (fs : JFields) :
    goodFields '.' fs = true → ∀ g : JFields,
    (∀ k2, (fieldsGet fs k2).isSome = true → fieldsGet g k2 = none) →
    insertAll (.vObj g) (relObj fs) = .ok (.vObj (fieldsAppend g fs)) := by
  refine @JFields.indF
    (fun t => goodVal '.' t = true → ∀ acc k,
      ((∃ f, acc = .vObj f ∧ fieldsGet f k = none) ∨
        (∃ a, acc = .vArr a ∧ k = natToStr (listLen a))) →
      insertAll acc ((relEntries t).map (fun e => (k :: e.1, e.2))) =
        .ok (jSet acc k t))
    (fun l => goodList '.' l = true → ∀ a : JList,
      insertAll (.vArr a) (relArr l (listLen a)) =
        .ok (.vArr (listAppend a l)))
    (fun fs => goodFields '.' fs = true → ∀ g : JFields,
      (∀ k2, (fieldsGet fs k2).isSome = true → fieldsGet g k2 = none) →
      insertAll (.vObj g) (relObj fs) = .ok (.vObj (fieldsAppend g fs)))
    ?_ ?_ ?_ ?_ ?_ ?_ ?_ ?_ ?_ ?_ fs
  -- motiveV vNull
  · intro _ acc k hP
    simp only [relEntries, List.map_cons, List.map_nil]
    exact insertAll_single_leaf acc k _ (pre_facts acc k hP).1
  -- motiveV vBool
  · intro b _ acc k hP
    simp only [relEntries, List.map_cons, List.map_nil]
    exact insertAll_single_leaf acc k _ (pre_facts acc k hP).1
  -- motiveV vNum
  · intro q _ acc k hP
    simp only [relEntries, List.map_cons, List.map_nil]
    exact insertAll_single_leaf acc k _ (pre_facts acc k hP).1
  -- motiveV vStr
  · intro s _ acc k hP
    simp only [relEntries, List.map_cons, List.map_nil]
    exact insertAll_single_leaf acc k _ (pre_facts acc k hP).1
  -- motiveV vArr
  · intro a ha hg acc k hP
    obtain ⟨hacc, hget, hP'⟩ := pre_facts acc k hP
    cases a with
    | nil =>
        simp only [relEntries, List.map_cons, List.map_nil]
        exact insertAll_single_leaf acc k _ hacc
    | cons v tl =>
        obtain ⟨e0, l0, hE⟩ := List.exists_cons_of_ne_nil (relEntries_ne_nil v)
        have hsplit : relArr (JList.cons v tl) 0 =
            (natToStr 0 :: e0.1, e0.2) ::
              (l0.map (fun e => (natToStr 0 :: e.1, e.2)) ++ relArr tl 1) := by
          simp [relArr, hE]
        have hpaths : ∀ x ∈
            l0.map (fun e => (natToStr 0 :: e.1, e.2)) ++ relArr tl 1,
            ∃ q1 qs, x.1 = q1 :: qs := by
          intro x hx
          rcases List.mem_append.mp hx with hx | hx
          · obtain ⟨y, _, hy⟩ := List.mem_map.mp hx
            exact ⟨natToStr 0, y.1, by rw [← hy]⟩
          · exact relArr_paths tl 1 x hx
        have hred : relEntries (.vArr (.cons v tl)) = relArr (.cons v tl) 0 := rfl
        rw [hred, hsplit]
        rw [insertAll_descend_none _ _ acc k (natToStr 0) e0.1 rfl hget hP'
          hpaths]
        have hseg : segContainer
            ((natToStr 0 :: e0.1, e0.2) : List JStr × JVal).1 = .vArr .nil := by
          simp [segContainer, jsNumericStr_natToStr]
        rw [hseg, ← hsplit]
        have hgl : goodList '.' (.cons v tl) = true := hg
        have hL := ha hgl JList.nil
        simp only [listLen, listAppend] at hL
        rw [hL]
        rfl
  -- motiveV vObj
  · intro f hf hg acc k hP
    obtain ⟨hacc, hget, hP'⟩ := pre_facts acc k hP
    cases f with
    | nil =>
        simp only [relEntries, List.map_cons, List.map_nil]
        exact insertAll_single_leaf acc k _ hacc
    | cons k1 v1 t1 =>
        have hgf : goodFields '.' (.cons k1 v1 t1) = true := hg
        have hk1n : jsNumericStr k1 = false := by
          simp only [goodFields, Bool.and_eq_true, Bool.not_eq_true'] at hgf
          exact hgf.1.1.1.1
        obtain ⟨e0, l0, hE⟩ :=
          List.exists_cons_of_ne_nil (relEntries_ne_nil v1)
        have hsplit : relObj (JFields.cons k1 v1 t1) =
            (k1 :: e0.1, e0.2) ::
              (l0.map (fun e => (k1 :: e.1, e.2)) ++ relObj t1) := by
          simp [relObj, hE]
        have hpaths : ∀ x ∈
            l0.map (fun e => (k1 :: e.1, e.2)) ++ relObj t1,
            ∃ q1 qs, x.1 = q1 :: qs := by
          intro x hx
          rcases List.mem_append.mp hx with hx | hx
          · obtain ⟨y, _, hy⟩ := List.mem_map.mp hx
            exact ⟨k1, y.1, by rw [← hy]⟩
          · exact relObj_paths t1 x hx
        have hred : relEntries (.vObj (.cons k1 v1 t1)) =
            relObj (.cons k1 v1 t1) := rfl
        rw [hred, hsplit]
        rw [insertAll_descend_none _ _ acc k k1 e0.1 rfl hget hP' hpaths]
        have hseg : segContainer
            ((k1 :: e0.1, e0.2) : List JStr × JVal).1 = .vObj .nil := by
          simp [segContainer, hk1n]
        rw [hseg, ← hsplit]
        have hF := hf hgf JFields.nil (fun k2 _ => rfl)
        simp only [fieldsAppend] at hF
        rw [hF]
        rfl
  -- motiveL nil
  · intro _ a
    simp only [relArr, insertAll, List.foldlM_nil, listAppend_nil]
    rfl
  -- motiveL cons
  · intro v tl hv htl hgood a
    have hgv : goodVal '.' v = true := by
      simp only [goodList, Bool.and_eq_true] at hgood
      exact hgood.1
    have hgt : goodList '.' tl = true := by
      simp only [goodList, Bool.and_eq_true] at hgood
      exact hgood.2
    simp only [relArr]
    rw [insertAll_append]
    have h1 := hv hgv (.vArr a) (natToStr (listLen a)) (Or.inr ⟨a, rfl, rfl⟩)
    rw [h1]
    have hj : jSet (.vArr a) (natToStr (listLen a)) v =
        .vArr (listAppend a (.cons v .nil)) := by
      simp [jSet, parseIndex_natToStr, listSet_listLen]
    rw [hj]
    have h2 := htl hgt (listAppend a (.cons v .nil))
    rw [listLen_listAppend] at h2
    simp only [listLen] at h2
    have hb : (Except.ok (ε := Unit) (.vArr (listAppend a (.cons v .nil)))
        >>= fun r => insertAll r (relArr tl (listLen a + 1))) =
        insertAll (.vArr (listAppend a (.cons v .nil)))
          (relArr tl (listLen a + 1)) := rfl
    rw [hb, h2, listAppend_assoc]
    rfl
  -- motiveF nil
  · intro _ g _
    simp only [relObj, insertAll, List.foldlM_nil, fieldsAppend_nil]
    rfl
  -- motiveF cons
  · intro k1 v1 t1 hv ht hgood g hdisj
    simp only [goodFields, Bool.and_eq_true, Bool.not_eq_true'] at hgood
    obtain ⟨⟨⟨⟨hk1n, hk1c⟩, hk1d⟩, hgv⟩, hgt⟩ := hgood
    have hg1 : fieldsGet g k1 = none := by
      apply hdisj k1
      simp [fieldsGet]
    simp only [relObj]
    rw [insertAll_append]
    have h1 := hv hgv (.vObj g) k1 (Or.inl ⟨g, rfl, hg1⟩)
    rw [h1]
    have hj : jSet (.vObj g) k1 v1 =
        .vObj (fieldsAppend g (.cons k1 v1 .nil)) := by
      simp [jSet, fieldsSet_eq_append g k1 v1 hg1]
    rw [hj]
    have hdisj2 : ∀ k2, (fieldsGet t1 k2).isSome = true →
        fieldsGet (fieldsAppend g (.cons k1 v1 .nil)) k2 = none := by
      intro k2 hk2
      have hne : k1 ≠ k2 := by
        intro he
        subst he
        rw [hk1d] at hk2
        cases hk2
      have hgk2 : fieldsGet g k2 = none := by
        apply hdisj k2
        simp only [fieldsGet, if_neg hne]
        exact hk2
      rw [fieldsGet_fieldsAppend, hgk2]
      simp [Option.orElse, fieldsGet, hne]
    have h2 := ht hgt (fieldsAppend g (.cons k1 v1 .nil)) hdisj2
    have hb : (Except.ok (ε := Unit)
        (JVal.vObj (fieldsAppend g (.cons k1 v1 .nil)))
        >>= fun r => insertAll r (relObj t1)) =
        insertAll (.vObj (fieldsAppend g (.cons k1 v1 .nil)))
          (relObj t1) := rfl
    rw [hb, h2, fieldsAppend_assoc]
    rfl

theorem recurseVal_rel (sep : Char) (t : JVal) : ∀ p : JStr, p ≠ [] →
    recurseVal sep t p =
      (relEntries t).map (fun e => (p ++ segsJoin sep e.1, e.2)) := by
  refine @JVal.indV
    (fun t => ∀ p : JStr, p ≠ [] →
      recurseVal sep t p =
        (relEntries t).map (fun e => (p ++ segsJoin sep e.1, e.2)))
    (fun l => ∀ (p : JStr) (i : Nat),
      recurseArr sep l p i =
        (relArr l i).map (fun e => (p ++ segsJoin sep e.1, e.2)))
    (fun f => ∀ p : JStr, p ≠ [] →
      recurseObj sep f p =
        (relObj f).map (fun e => (p ++ segsJoin sep e.1, e.2)))
    ?_ ?_ ?_ ?_ ?_ ?_ ?_ ?_ ?_ ?_ t
  · intro p _
    simp [recurseVal, relEntries, segsJoin]
  · intro b p _
    simp [recurseVal, relEntries, segsJoin]
  · intro q p _
    simp [recurseVal, relEntries, segsJoin]
  · intro s p _
    simp [recurseVal, relEntries, segsJoin]
  · intro a ha p hp
    cases a with
    | nil => simp [recurseVal, relEntries, segsJoin]
    | cons v tl =>
        simp only [recurseVal, relEntries]
        exact ha p 0
  · intro f hf p hp
    cases f with
    | nil => simp [recurseVal, relEntries, segsJoin, hp]
    | cons k v tl =>
        simp only [recurseVal, relEntries]
        exact hf p hp
  · intro p i
    simp [recurseArr, relArr]
  · intro v tl hv htl p i
    simp only [recurseArr, relArr, List.map_append, List.map_map]
    have h1 : recurseVal sep v (p ++ sep :: natToStr i) =
        (relEntries v).map
          (fun e => ((p ++ sep :: natToStr i) ++ segsJoin sep e.1, e.2)) :=
      hv (p ++ sep :: natToStr i) (by simp)
    rw [h1, htl p (i + 1)]
    congr 1
    apply List.map_congr_left
    intro e _
    simp [segsJoin, List.append_assoc]
  · intro p _
    simp [recurseObj, relObj]
  · intro k v tl hv htl p hp
    simp only [recurseObj, relObj, List.map_append, List.map_map, if_pos hp]
    have h1 : recurseVal sep v (p ++ sep :: k) =
        (relEntries v).map
          (fun e => ((p ++ sep :: k) ++ segsJoin sep e.1, e.2)) :=
      hv (p ++ sep :: k) (by simp)
    rw [h1, htl p hp]
    congr 1
    apply List.map_congr_left
    intro e _
    simp [segsJoin, List.append_assoc]

theorem good_key_ne_nil (k : JStr) (h : jsNumericStr k = false) : k ≠ [] := by
  intro he
  subst he
  rw [jsNumericStr_nil] at h
  cases h

theorem recurseObj_root (f : JFields) (hg : goodFields '.' f = true) :
    recurseObj '.' f [] =
      (relObj f).map (fun e => (pathJoin '.' e.1, e.2)) := by
  induction f using fieldsInductionOn with
  | nil => simp [recurseObj, relObj]
  | cons k v tl ih =>
      simp only [goodFields, Bool.and_eq_true, Bool.not_eq_true'] at hg
      obtain ⟨⟨⟨⟨hkn, hkc⟩, hkd⟩, hgv⟩, hgt⟩ := hg
      have hk : k ≠ [] := good_key_ne_nil k hkn
      simp only [recurseObj, relObj, List.map_append, List.map_map]
      have hif : (if ([] : JStr) ≠ [] then [] ++ '.' :: k else k) = k := by
        simp
      rw [hif, recurseVal_rel '.' v k hk, ih hgt]
      congr 1

theorem recurseVal_root (f : JFields) (hg : goodFields '.' f = true) :
    recurseVal '.' (.vObj f) [] =
      (relObj f).map (fun e => (pathJoin '.' e.1, e.2)) := by
  cases f with
  | nil => simp [recurseVal, relObj]
  | cons k v tl =>
      simp only [recurseVal]
      exact recurseObj_root _ hg

theorem digit_ne_dot (c : Char) (h : isDigitChar c = true) : c ≠ '.' := by
  intro he
  subst he
  revert h
  decide

theorem not_mem_of_contains_false (l : JStr) (a : Char)
    (h : l.contains a = false) : a ∉ l := by
  intro hm
  simp only [List.contains_eq_any_beq, List.any_eq_false] at h
  have := h a hm
  simp at this

theorem relObj_pieces (f : JFields) :
    goodFields '.' f = true → ∀ e ∈ relObj f, ∀ piece ∈ e.1,
      piece ≠ [] ∧ ∀ c ∈ piece, c ≠ '.' := by
  refine @JFields.indF
    (fun t => goodVal '.' t = true → ∀ e ∈ relEntries t, ∀ piece ∈ e.1,
      piece ≠ [] ∧ ∀ c ∈ piece, c ≠ '.')
    (fun l => goodList '.' l = true → ∀ i, ∀ e ∈ relArr l i,
      ∀ piece ∈ e.1, piece ≠ [] ∧ ∀ c ∈ piece, c ≠ '.')
    (fun f => goodFields '.' f = true → ∀ e ∈ relObj f, ∀ piece ∈ e.1,
      piece ≠ [] ∧ ∀ c ∈ piece, c ≠ '.')
    ?_ ?_ ?_ ?_ ?_ ?_ ?_ ?_ ?_ ?_ f
  · intro _ e he
    simp only [relEntries, List.mem_singleton] at he
    subst he
    intro piece hp
    simp at hp
  · intro b _ e he
    simp only [relEntries, List.mem_singleton] at he
    subst he
    intro piece hp
    simp at hp
  · intro q _ e he
    simp only [relEntries, List.mem_singleton] at he
    subst he
    intro piece hp
    simp at hp
  · intro s _ e he
    simp only [relEntries, List.mem_singleton] at he
    subst he
    intro piece hp
    simp at hp
  · intro a ha hg e he
    cases a with
    | nil =>
        simp only [relEntries, List.mem_singleton] at he
        subst he
        intro piece hp
        simp at hp
    | cons v tl =>
        simp only [relEntries] at he
        exact ha hg 0 e he
  · intro f hf hg e he
    cases f with
    | nil =>
        simp only [relEntries, List.mem_singleton] at he
        subst he
        intro piece hp
        simp at hp
    | cons k v tl =>
        simp only [relEntries] at he
        exact hf hg e he
  · intro _ i e he
    simp [relArr] at he
  · intro v tl hv htl hg i e he
    simp only [goodList, Bool.and_eq_true] at hg
    simp only [relArr, List.mem_append] at he
    rcases he with he | he
    · obtain ⟨y, hy, hye⟩ := List.mem_map.mp he
      intro piece hp
      rw [← hye] at hp
      simp only [List.mem_cons] at hp
      rcases hp with hp | hp
      · subst hp
        exact ⟨natToStr_ne_nil i,
          fun c hc => digit_ne_dot c (natToStr_digits i c hc)⟩
      · exact hv hg.1 y hy piece hp
    · exact htl hg.2 (i + 1) e he
  · intro _ e he
    simp [relObj] at he
  · intro k v tl hv htl hg e he
    simp only [goodFields, Bool.and_eq_true, Bool.not_eq_true'] at hg
    obtain ⟨⟨⟨⟨hkn, hkc⟩, hkd⟩, hgv⟩, hgt⟩ := hg
    simp only [relObj, List.mem_append] at he
    rcases he with he | he
    · obtain ⟨y, hy, hye⟩ := List.mem_map.mp he
      intro piece hp
      rw [← hye] at hp
      simp only [List.mem_cons] at hp
      rcases hp with hp | hp
      · rw [hp]
        refine ⟨good_key_ne_nil k hkn, fun c hc he2 => ?_⟩
        subst he2
        exact not_mem_of_contains_false k '.' hkc hc
      · exact hv hgv y hy piece hp
    · exact htl
        (by simp [goodFields, Bool.and_eq_true, Bool.not_eq_true', hkn,
          hkc, hkd, hgv, hgt]) e he

theorem relObj_keys_nodup (f : JFields) :
    goodFields '.' f = true →
      ((relObj f).map Prod.fst).Nodup ∧
      (∀ p ∈ (relObj f).map Prod.fst, ∃ k q, p = k :: q ∧
        (fieldsGet f k).isSome = true) := by
  refine @JFields.indF
    (fun t => goodVal '.' t = true → ((relEntries t).map Prod.fst).Nodup)
    (fun l => goodList '.' l = true → ∀ i,
      ((relArr l i).map Prod.fst).Nodup ∧
      (∀ p ∈ (relArr l i).map Prod.fst, ∃ j q,
        p = natToStr j :: q ∧ i ≤ j))
    (fun f => goodFields '.' f = true →
      ((relObj f).map Prod.fst).Nodup ∧
      (∀ p ∈ (relObj f).map Prod.fst, ∃ k q, p = k :: q ∧
        (fieldsGet f k).isSome = true))
    ?_ ?_ ?_ ?_ ?_ ?_ ?_ ?_ ?_ ?_ f
  · intro _; simp [relEntries]
  · intro b _; simp [relEntries]
  · intro q _; simp [relEntries]
  · intro s _; simp [relEntries]
  · intro a ha hg
    cases a with
    | nil => simp [relEntries]
    | cons v tl =>
        simp only [relEntries]
        exact (ha hg 0).1
  · intro f hf hg
    cases f with
    | nil => simp [relEntries]
    | cons k v tl =>
        simp only [relEntries]
        exact (hf hg).1
  · intro _ i; simp [relArr]
  · intro v tl hv htl hg i
    simp only [goodList, Bool.and_eq_true] at hg
    have hinj : Function.Injective (fun p : List JStr => natToStr i :: p) :=
      fun a b h => (List.cons.inj h).2
    have hd1 : ((relEntries v).map Prod.fst).map
        (fun p => natToStr i :: p) |>.Nodup :=
      List.Nodup.map hinj (hv hg.1)
    have htl1 := (htl hg.2 (i + 1)).1
    have htl2 := (htl hg.2 (i + 1)).2
    constructor
    · simp only [relArr, List.map_append, List.map_map]
      apply List.Nodup.append
      · simpa [List.map_map] using hd1
      · exact htl1
      · rw [List.disjoint_left]
        intro p hp hp2
        obtain ⟨y, _, hy⟩ := List.mem_map.mp hp
        obtain ⟨j, q, hjq, hij⟩ := htl2 p hp2
        rw [← hy] at hjq
        have hh := (List.cons.inj hjq).1
        have := natToStr_inj i j hh
        omega
    · intro p hp
      simp only [relArr, List.map_append, List.mem_append] at hp
      rcases hp with hp | hp
      · rw [List.map_map] at hp
        obtain ⟨y, _, hy⟩ := List.mem_map.mp hp
        refine ⟨i, y.1, ?_, le_rfl⟩
        rw [← hy]
        rfl
      · obtain ⟨j, q, hjq, hij⟩ := htl2 p hp
        exact ⟨j, q, hjq, by omega⟩
  · intro _; simp [relObj]
  · intro k v tl hv htl hg
    simp only [goodFields, Bool.and_eq_true, Bool.not_eq_true'] at hg
    obtain ⟨⟨⟨⟨hkn, hkc⟩, hkd⟩, hgv⟩, hgt⟩ := hg
    have hgt2 : goodFields '.' tl = true := hgt
    have hinj : Function.Injective (fun p : List JStr => k :: p) :=
      fun a b h => (List.cons.inj h).2
    have hd1 : ((relEntries v).map Prod.fst).map (fun p => k :: p) |>.Nodup :=
      List.Nodup.map hinj (hv hgv)
    have htl1 := (htl hgt2).1
    have htl2 := (htl hgt2).2
    constructor
    · simp only [relObj, List.map_append, List.map_map]
      apply List.Nodup.append
      · simpa [List.map_map] using hd1
      · exact htl1
      · rw [List.disjoint_left]
        intro p hp hp2
        obtain ⟨y, _, hy⟩ := List.mem_map.mp hp
        obtain ⟨k2, q, hjq, hk2⟩ := htl2 p hp2
        rw [← hy] at hjq
        have hh := (List.cons.inj hjq).1
        rw [← hh] at hk2
        rw [hkd] at hk2
        cases hk2
    · intro p hp
      simp only [relObj, List.map_append, List.mem_append] at hp
      rcases hp with hp | hp
      · rw [List.map_map] at hp
        obtain ⟨y, _, hy⟩ := List.mem_map.mp hp
        refine ⟨k, y.1, ?_, ?_⟩
        · rw [← hy]
          rfl
        · simp [fieldsGet]
      · obtain ⟨k2, q, hjq, hk2⟩ := htl2 p hp
        refine ⟨k2, q, hjq, ?_⟩
        by_cases he : k = k2
        · simp [fieldsGet, he]
        · simp [fieldsGet, he, hk2]

theorem assocSet_append (acc : List (JStr × JVal)) (key : JStr) (v : JVal)
    (h : ∀ kv ∈ acc, kv.1 ≠ key) : assocSet acc key v = acc ++ [(key, v)] := by
  induction acc with
  | nil => rfl
  | cons kv t ih =>
      obtain ⟨k, w⟩ := kv
      simp only [assocSet]
      rw [if_neg (h (k, w) (List.mem_cons_self _ _))]
      rw [ih (fun x hx => h x (List.mem_cons_of_mem _ hx))]
      simp

theorem foldl_assocSet (l : List (JStr × JVal)) : ∀ acc,
    (l.map Prod.fst).Nodup →
    (∀ kv ∈ l, ∀ kv2 ∈ acc, kv2.1 ≠ kv.1) →
    l.foldl (fun res kv => assocSet res kv.1 kv.2) acc = acc ++ l := by
  induction l with
  | nil => intro acc _ _; simp
  | cons kv t ih =>
      intro acc hnd hdis
      simp only [List.map_cons, List.nodup_cons] at hnd
      simp only [List.foldl_cons]
      rw [assocSet_append acc kv.1 kv.2
        (fun x hx => hdis kv (List.mem_cons_self _ _) x hx)]
      have hdis2 : ∀ x ∈ t, ∀ y ∈ acc ++ [(kv.1, kv.2)], y.1 ≠ x.1 := by
        intro x hx y hy
        rcases List.mem_append.mp hy with hy | hy
        · exact hdis x (List.mem_cons_of_mem _ hx) y hy
        · simp only [List.mem_singleton] at hy
          subst hy
          intro he
          exact hnd.1 (he ▸ List.mem_map_of_mem Prod.fst hx)
      rw [ih (acc ++ [(kv.1, kv.2)]) hnd.2 hdis2]
      simp

theorem flatten_eq_entries (f : JFields) (hg : goodFields '.' f = true) :
    flatten (.vObj f) '.' =
      (relObj f).map (fun e => (pathJoin '.' e.1, e.2)) := by
  unfold flatten
  rw [recurseVal_root f hg]
  rw [foldl_assocSet _ [] ?nodup (by intro kv _ kv2 h2; simp at h2)]
  · simp
  case nodup =>
    have hnd := (relObj_keys_nodup f hg).1
    have hmm : ((relObj f).map (fun e => (pathJoin '.' e.1, e.2))).map
        Prod.fst = ((relObj f).map Prod.fst).map (pathJoin '.') := by
      rw [List.map_map, List.map_map]
      rfl
    rw [hmm]
    refine List.Nodup.map_on ?_ hnd
    intro x hx y hy hxy
    obtain ⟨ex, hex, hex1⟩ := List.mem_map.mp hx
    obtain ⟨ey, hey, hey1⟩ := List.mem_map.mp hy
    obtain ⟨x1, xs, hxc⟩ := relObj_paths f ex hex
    obtain ⟨y1, ys, hyc⟩ := relObj_paths f ey hey
    have hxs : x = x1 :: xs := by rw [← hex1, hxc]
    have hys : y = y1 :: ys := by rw [← hey1, hyc]
    subst hxs; subst hys
    have hpx : ∀ piece ∈ x1 :: xs, ∀ c ∈ piece, c ≠ '.' := by
      intro piece hp c hc
      have := relObj_pieces f hg ex hex piece (by rw [hxc]; exact hp)
      exact this.2 c hc
    have hpy : ∀ piece ∈ y1 :: ys, ∀ c ∈ piece, c ≠ '.' := by
      intro piece hp c hc
      have := relObj_pieces f hg ey hey piece (by rw [hyc]; exact hp)
      exact this.2 c hc
    exact pathJoin_inj '.' x1 y1 xs ys hpx hpy hxy

theorem split_join_map (l : List (List JStr × JVal))
    (h : ∀ e ∈ l, (∃ q1 qs, e.1 = q1 :: qs) ∧
      (∀ piece ∈ e.1, ∀ c ∈ piece, c ≠ '.')) :
    (l.map (fun e => (pathJoin '.' e.1, e.2))).map
      (fun kv => (splitOnChar '.' kv.1, kv.2)) = l := by
  rw [List.map_map]
  apply map_id_of_mem
  intro e he
  obtain ⟨⟨q1, qs, hq⟩, hpieces⟩ := h e he
  show (splitOnChar '.' (pathJoin '.' e.1), e.2) = e
  rw [hq, splitOnChar_pathJoin '.' q1 qs (by rw [← hq]; exact hpieces)]
  rw [← hq]

theorem isEqual_refl_good (t : JVal) :
    goodVal '.' t = true → isEqual t t = true := by
  refine @JVal.indV
    (fun t => goodVal '.' t = true → isEqual t t = true)
    (fun l => goodList '.' l = true → listEqual l l = true)
    (fun f => goodFields '.' f = true → ∀ y,
      (∀ k v, fieldsGet f k = some v → fieldsGet y k = some v) →
      fieldsSubEqual f y = true)
    ?_ ?_ ?_ ?_ ?_ ?_ ?_ ?_ ?_ ?_ t
  · intro _; rfl
  · intro b _; simp [isEqual]
  · intro q _; simp [isEqual]
  · intro s _; simp [isEqual]
  · intro a ha hg
    simp only [isEqual]
    exact ha hg
  · intro f hf hg
    simp only [isEqual, Bool.and_eq_true]
    exact ⟨by simp, hf hg f (fun k v h => h)⟩
  · intro _; rfl
  · intro v tl hv htl hg
    simp only [goodList, Bool.and_eq_true] at hg
    simp only [listEqual, Bool.and_eq_true]
    exact ⟨hv hg.1, htl hg.2⟩
  · intro _ y _; rfl
  · intro k v tl hv htl hg y hy
    simp only [goodFields, Bool.and_eq_true, Bool.not_eq_true'] at hg
    obtain ⟨⟨⟨⟨hkn, hkc⟩, hkd⟩, hgv⟩, hgt⟩ := hg
    have hk : fieldsGet y k = some v := hy k v (by simp [fieldsGet])
    simp only [fieldsSubEqual, hk, Bool.and_eq_true]
    refine ⟨hv hgv, htl hgt y ?_⟩
    intro k2 v2 h2
    apply hy k2 v2
    have hne : k ≠ k2 := by
      intro he
      subst he
      rw [h2] at hkd
      cases hkd
    simp [fieldsGet, hne, h2]

/-- C1 counterexample: the round trip fails on the mapping {a:{"0":1}},
an object whose inner mapping has the numeric key 0.  flatten produces
the single entry a.0 = 1 and unflatten, seeing the numeric segment,
reconstructs an array: the result is {a:[1]}, not deeply equal to the
input. -/
theorem flatten_unflatten_counterexample :
    unflatten
        (flatten (.vObj (.cons ['a'] (.vObj (.cons ['0'] (.vNum 1) .nil))
          .nil)) '.') '.' =
      .ok (.vObj (.cons ['a'] (.vArr (.cons (.vNum 1) .nil)) .nil)) ∧
    isEqual (.vObj (.cons ['a'] (.vArr (.cons (.vNum 1) .nil)) .nil))
        (.vObj (.cons ['a'] (.vObj (.cons ['0'] (.vNum 1) .nil)) .nil)) =
      false :=
  ⟨rfl, rfl⟩

/-- C1 (amended): for every object o all of whose keys, at every
nesting level, are non-numeric under JS Number coercion, free of the
separator and distinct, unflatten(flatten(o)) with the default dot
separator succeeds and returns exactly o (hence a value deeply equal
to o).  flatten keys the result by dot-joined path segments with
decimal indices for array elements, and unflatten reconstructs an
array exactly at the segments whose key is numeric.  Without the key
restriction the round trip fails (see the counterexample): a numeric
object key is rebuilt as an array index. -/
theorem flatten_unflatten_spec (f : JFields)
    (hg : goodVal '.' (.vObj f) = true) :
    unflatten (flatten (.vObj f) '.') '.' = .ok (.vObj f) ∧
    isEqual (.vObj f) (.vObj f) = true := by
  have hgf : goodFields '.' f = true := hg
  constructor
  · rw [unflatten_eq_insertAll, flatten_eq_entries f hgf]
    rw [split_join_map (relObj f) (fun e he =>
      ⟨relObj_paths f e he, fun piece hp c hc =>
        (relObj_pieces f hgf e he piece hp).2 c hc⟩)]
    have := insertAll_relObj f hgf .nil (fun k2 _ => rfl)
    simpa [fieldsAppend] using this
  · exact isEqual_refl_good (.vObj f) hg

theorem flatten_unflatten_spec_witness :
    unflatten
        (flatten (.vObj (.cons ['a']
          (.vArr (.cons (.vNum 1)
            (.cons (.vObj (.cons ['b'] (.vStr ['x']) .nil)) .nil)))
          (.cons ['c'] (.vObj .nil) .nil))) '.') '.' =
      .ok (.vObj (.cons ['a']
          (.vArr (.cons (.vNum 1)
            (.cons (.vObj (.cons ['b'] (.vStr ['x']) .nil)) .nil)))
          (.cons ['c'] (.vObj .nil) .nil))) ∧
    isEqual (.vObj (.cons ['a']
          (.vArr (.cons (.vNum 1)
            (.cons (.vObj (.cons ['b'] (.vStr ['x']) .nil)) .nil)))
          (.cons ['c'] (.vObj .nil) .nil)))
        (.vObj (.cons ['a']
          (.vArr (.cons (.vNum 1)
            (.cons (.vObj (.cons ['b'] (.vStr ['x']) .nil)) .nil)))
          (.cons ['c'] (.vObj .nil) .nil))) = true :=
  flatten_unflatten_spec
    (.cons ['a']
      (.vArr (.cons (.vNum 1)
        (.cons (.vObj (.cons ['b'] (.vStr ['x']) .nil)) .nil)))
      (.cons ['c'] (.vObj .nil) .nil)) (by decide)

/-! ### C3 -/

/-- C3 counterexample: a dispatch on an unrecognized function name
(empty registry, first argument foo) prints the not-found error line,
yet the exit status of the run is 0 and not non-zero: no code path of
the script calls process.exit or lets an exception escape. -/
theorem cli_exit_counterexample :
    (runCli (fun _ => none) [] (fun s => .vStr s) [['f', 'o', 'o']]).2 = 0 ∧
    CliLine.notFound ['f', 'o', 'o'] ∈
      (runCli (fun _ => none) [] (fun s => .vStr s) [['f', 'o', 'o']]).1 := by
  constructor
  · rfl
  · rw [show (runCli (fun _ => none) [] (fun s => .vStr s)
        [['f', 'o', 'o']]).1 =
      [CliLine.notFound ['f', 'o', 'o'], CliLine.listHint] from rfl]
    exact List.mem_cons_self _ _

/-- C3 (amended): for every dispatch whose first argument is neither
help nor list, the CLI prints an error line when the name is not in
the registry (the not-found message) or when the invoked function
throws (the error header and the thrown message), but the process
always terminates with exit status 0: the claimed non-zero exit status
does not exist in the script. -/
theorem cli_spec (utils : JStr → Option (List JVal → Except JStr JVal))
    (categories : List (JStr × List JStr)) (parseArg : JStr → JVal)
    (a0 : JStr) (rest : List JStr)
    (h1 : a0 ≠ ['h', 'e', 'l', 'p']) (h2 : a0 ≠ ['l', 'i', 's', 't']) :
    (runCli utils categories parseArg (a0 :: rest)).2 = 0 ∧
    (utils a0 = none →
      CliLine.notFound a0 ∈
        (runCli utils categories parseArg (a0 :: rest)).1) ∧
    (∀ f msg, utils a0 = some f → f (rest.map parseArg) = .error msg →
      CliLine.execErrorHead a0 ∈
        (runCli utils categories parseArg (a0 :: rest)).1 ∧
      CliLine.execErrorMsg msg ∈
        (runCli utils categories parseArg (a0 :: rest)).1) := by
  have hrun : runCli utils categories parseArg (a0 :: rest) =
      (executeFunction utils categories parseArg a0 rest, 0) := by
    simp [runCli, h1, h2]
  refine ⟨by rw [hrun], ?_, ?_⟩
  · intro hnone
    rw [hrun]
    simp only [executeFunction, hnone]
    exact List.mem_cons_self _ _
  · intro f msg hsome herr
    rw [hrun]
    simp only [executeFunction, hsome, herr]
    constructor
    · simp
    · simp

theorem cli_spec_witness :
    (runCli (fun n => if n = ['f'] then
        some (fun _ : List JVal => (Except.error ['b'] : Except JStr JVal)) else none) [] (fun s => .vStr s)
      (['f'] :: [])).2 = 0 ∧
    ((fun n => if n = ['f'] then
        some (fun _ : List JVal => (Except.error ['b'] : Except JStr JVal))
      else none) ['f'] = none →
      CliLine.notFound ['f'] ∈
        (runCli (fun n => if n = ['f'] then
          some (fun _ : List JVal => (Except.error ['b'] : Except JStr JVal)) else none) [] (fun s => .vStr s)
          (['f'] :: [])).1) ∧
    (∀ f msg, (fun n => if n = ['f'] then
        some (fun _ : List JVal => (Except.error ['b'] : Except JStr JVal))
      else none) ['f'] = some f →
      f (([] : List JStr).map (fun s => JVal.vStr s)) = .error msg →
      CliLine.execErrorHead ['f'] ∈
        (runCli (fun n => if n = ['f'] then
          some (fun _ : List JVal => (Except.error ['b'] : Except JStr JVal)) else none) [] (fun s => .vStr s)
          (['f'] :: [])).1 ∧
      CliLine.execErrorMsg msg ∈
        (runCli (fun n => if n = ['f'] then
          some (fun _ : List JVal => (Except.error ['b'] : Except JStr JVal)) else none) [] (fun s => .vStr s)
          (['f'] :: [])).1) :=
  cli_spec (fun n => if n = ['f'] then
      some (fun _ : List JVal => (Except.error ['b'] : Except JStr JVal)) else none) [] (fun s => .vStr s)
    ['f'] [] (by decide) (by decide)

/-! ### C8 -/

theorem heap_get_lt (h : Heap) (a : Nat) (x : HNode)
    (hx : h.get? a = some x) : a < h.length := by
  by_contra hn
  push_neg at hn
  rw [List.get?_eq_none.mpr hn] at hx
  cases hx

theorem frame_chain (h h1 h2 : Heap) (acc : Nat)
    (hs1 : h.length ≤ h1.length ∧
      ∀ b < h.length, b ≠ acc → h1.get? b = h.get? b)
    (hs2 : h1.length ≤ h2.length ∧
      ∀ b < h1.length, b ≠ acc → h2.get? b = h1.get? b) :
    h.length ≤ h2.length ∧
      ∀ b < h.length, b ≠ acc → h2.get? b = h.get? b :=
  ⟨le_trans hs1.1 hs2.1, fun b hb hbacc =>
    (hs2.2 b (lt_of_lt_of_le hb hs1.1) hbacc).trans (hs1.2 b hb hbacc)⟩

theorem frame_alloc_set (h : Heap) (x : HNode) (acc : Nat) (n2 : HNode) :
    h.length ≤ ((h ++ [x]).set acc n2).length ∧
    ∀ b < h.length, b ≠ acc →
      ((h ++ [x]).set acc n2).get? b = h.get? b := by
  constructor
  · rw [List.length_set, List.length_append]
    simp
  · intro b hb hbacc
    rw [List.get?_set_ne _ _ (Ne.symm hbacc), List.get?_append hb]

theorem frame_set (h : Heap) (acc : Nat) (n2 : HNode) :
    h.length ≤ (h.set acc n2).length ∧
    ∀ b < h.length, b ≠ acc → (h.set acc n2).get? b = h.get? b := by
  constructor
  · rw [List.length_set]
  · intro b hb hbacc
    rw [List.get?_set_ne _ _ (Ne.symm hbacc)]

theorem setH_single (h : Heap) (root : Nat) (k : JStr) (v : HVal)
    (fields : List (JStr × HVal))
    (hroot : h.get? root = some (.hObj fields))
    (hk : ∀ c ∈ k, c ≠ '.') :
    setH h root k v = .ok (h.set root (.hObj (hfSet fields k v)), root) := by
  unfold setH
  rw [splitOnChar_of_not_mem '.' k hk]
  simp only [setWalk, hroot]
  rfl

theorem setH_same_ref (h : Heap) (root : Nat) (path : JStr) (v : HVal)
    (h2 : Heap) (r2 : Nat) (heq : setH h root path v = .ok (h2, r2)) :
    r2 = root := by
  unfold setH at heq
  cases hres : setWalk v h root (splitOnChar '.' path) with
  | error e => rw [hres] at heq; cases heq
  | ok hh =>
      rw [hres] at heq
      cases heq
      rfl

theorem shuffleH_fresh (h : Heap) (a : Nat) (rand : Nat → Nat)
    (elems : List HVal) (ha : h.get? a = some (.hArr elems)) :
    (shuffleH h a rand).2 = h.length ∧ a ≠ (shuffleH h a rand).2 ∧
    ∀ b < h.length, (shuffleH h a rand).1.get? b = h.get? b := by
  have halt : a < h.length := heap_get_lt h a _ ha
  simp only [shuffleH, ha]
  refine ⟨by trivial, by omega, fun b hb => List.get?_append hb⟩

/-- C8 counterexample: set({a: null}, a.b, 1) does not mutate and
return the object: the walk descends into the null at key a (of typeof
object) and the following property access throws. -/
theorem set_null_counterexample :
    setH [HNode.hObj [(['a'], HVal.hNull)]] 0 ['a', '.', 'b']
      (HVal.hNum 1) = .error () := rfl

theorem mergeFieldsH_frame
    (merge2 : Heap → Nat → Nat → Except Unit (Heap × Nat))
    (hm : ∀ h pa oa h2 n, merge2 h pa oa = .ok (h2, n) →
      h.length ≤ h2.length ∧ ∀ b < h.length, h2.get? b = h.get? b) :
    ∀ (fields : List (JStr × HVal)) (h : Heap) (acc : Nat) (h2 : Heap),
    mergeFieldsH merge2 h acc fields = .ok h2 →
    h.length ≤ h2.length ∧
      ∀ b < h.length, b ≠ acc → h2.get? b = h.get? b := by
  intro fields
  induction fields with
  | nil =>
      intro h acc h2 heq
      simp only [mergeFieldsH] at heq
      cases heq
      exact ⟨le_rfl, fun b _ _ => rfl⟩
  | cons kv rest ih =>
      intro h acc h2 heq
      obtain ⟨k, oVal⟩ := kv
      simp only [mergeFieldsH] at heq
      cases hacc : h.get? acc with
      | none => rw [hacc] at heq; cases heq
      | some node =>
          rw [hacc] at heq
          cases node with
          | hArr es => dsimp only at heq; cases heq
          | hObj accFields =>
              dsimp only at heq
              cases hpe : arrElemsH h (hfGet accFields k) with
              | some pEs =>
                  rw [hpe] at heq
                  cases hoe : arrElemsH h (some oVal) with
                  | some oEs =>
                      rw [hoe] at heq
                      dsimp only at heq
                      exact frame_chain h _ h2 acc
                        (frame_alloc_set h _ acc _) (ih _ acc h2 heq)
                  | none =>
                      rw [hoe] at heq
                      dsimp only at heq
                      by_cases hio : (isObjectH h (hfGet accFields k) &&
                          isObjectH h (some oVal)) = true
                      · rw [if_pos hio] at heq
                        cases hpv : hfGet accFields k with
                        | none => rw [hpv] at heq; dsimp only at heq; cases heq
                        | some pv =>
                            rw [hpv] at heq
                            cases pv with
                            | hRef pa =>
                                cases oVal with
                                | hRef oa =>
                                    dsimp only at heq
                                    cases hmo : merge2 h pa oa with
                                    | error e =>
                                        rw [hmo] at heq; cases heq
                                    | ok pr =>
                                        obtain ⟨h1, n⟩ := pr
                                        rw [hmo] at heq
                                        dsimp only at heq
                                        cases hacc1 : h1.get? acc with
                                        | none =>
                                            rw [hacc1] at heq; cases heq
                                        | some node1 =>
                                            rw [hacc1] at heq
                                            cases node1 with
                                            | hArr es1 =>
                                                dsimp only at heq; cases heq
                                            | hObj accFields1 =>
                                                dsimp only at heq
                                                have hm1 := hm h pa oa h1 n hmo
                                                refine frame_chain h h1 h2 acc
                                                  ⟨hm1.1, fun b hb _ =>
                                                    hm1.2 b hb⟩ ?_
                                                exact frame_chain h1 _ h2 acc
                                                  (frame_set h1 acc _)
                                                  (ih _ acc h2 heq)
                                | hNull => dsimp only at heq; cases heq
                                | hBool b => dsimp only at heq; cases heq
                                | hNum q => dsimp only at heq; cases heq
                                | hStr s => dsimp only at heq; cases heq
                            | hNull => dsimp only at heq; cases heq
                            | hBool b => dsimp only at heq; cases heq
                            | hNum q => dsimp only at heq; cases heq
                            | hStr s => dsimp only at heq; cases heq
                      · rw [if_neg hio] at heq
                        exact frame_chain h _ h2 acc (frame_set h acc _)
                          (ih _ acc h2 heq)
              | none =>
                  rw [hpe] at heq
                  dsimp only at heq
                  by_cases hio : (isObjectH h (hfGet accFields k) &&
                      isObjectH h (some oVal)) = true
                  · rw [if_pos hio] at heq
                    cases hpv : hfGet accFields k with
                    | none => rw [hpv] at heq; dsimp only at heq; cases heq
                    | some pv =>
                        rw [hpv] at heq
                        cases pv with
                        | hRef pa =>
                            cases oVal with
                            | hRef oa =>
                                dsimp only at heq
                                cases hmo : merge2 h pa oa with
                                | error e => rw [hmo] at heq; cases heq
                                | ok pr =>
                                    obtain ⟨h1, n⟩ := pr
                                    rw [hmo] at heq
                                    dsimp only at heq
                                    cases hacc1 : h1.get? acc with
                                    | none => rw [hacc1] at heq; cases heq
                                    | some node1 =>
                                        rw [hacc1] at heq
                                        cases node1 with
                                        | hArr es1 =>
                                            dsimp only at heq; cases heq
                                        | hObj accFields1 =>
                                            dsimp only at heq
                                            have hm1 := hm h pa oa h1 n hmo
                                            refine frame_chain h h1 h2 acc
                                              ⟨hm1.1, fun b hb _ =>
                                                hm1.2 b hb⟩ ?_
                                            exact frame_chain h1 _ h2 acc
                                              (frame_set h1 acc _)
                                              (ih _ acc h2 heq)
                            | hNull => dsimp only at heq; cases heq
                            | hBool b => dsimp only at heq; cases heq
                            | hNum q => dsimp only at heq; cases heq
                            | hStr s => dsimp only at heq; cases heq
                        | hNull => dsimp only at heq; cases heq
                        | hBool b => dsimp only at heq; cases heq
                        | hNum q => dsimp only at heq; cases heq
                        | hStr s => dsimp only at heq; cases heq
                  · rw [if_neg hio] at heq
                    exact frame_chain h _ h2 acc (frame_set h acc _)
                      (ih _ acc h2 heq)

theorem mergeStepH_frame
    (merge2 : Heap → Nat → Nat → Except Unit (Heap × Nat))
    (hm : ∀ h pa oa h2 n, merge2 h pa oa = .ok (h2, n) →
      h.length ≤ h2.length ∧ ∀ b < h.length, h2.get? b = h.get? b)
    (h : Heap) (acc obj : Nat) (h2 : Heap)
    (heq : mergeStepH merge2 h acc obj = .ok h2) :
    h.length ≤ h2.length ∧
      ∀ b < h.length, b ≠ acc → h2.get? b = h.get? b := by
  simp only [mergeStepH] at heq
  cases hobj : h.get? obj with
  | none => rw [hobj] at heq; cases heq
  | some node =>
      rw [hobj] at heq
      cases node with
      | hArr es => dsimp only at heq; cases heq
      | hObj objFields =>
          dsimp only at heq
          exact mergeFieldsH_frame merge2 hm objFields h acc h2 heq

theorem deepMergePairH_frame : ∀ (fuel : Nat) (h : Heap) (pa oa : Nat)
    (h2 : Heap) (n : Nat), deepMergePairH fuel h pa oa = .ok (h2, n) →
    h.length ≤ h2.length ∧ ∀ b < h.length, h2.get? b = h.get? b := by
  intro fuel
  induction fuel with
  | zero => intro h pa oa h2 n heq; cases heq
  | succ fuel ih =>
      intro h pa oa h2 n heq
      simp only [deepMergePairH] at heq
      cases hs1 : mergeStepH (deepMergePairH fuel) (h ++ [HNode.hObj []])
          h.length pa with
      | error e => rw [hs1] at heq; cases heq
      | ok h1 =>
          rw [hs1] at heq
          dsimp only at heq
          cases hs2 : mergeStepH (deepMergePairH fuel) h1 h.length oa with
          | error e => rw [hs2] at heq; cases heq
          | ok hh2 =>
              rw [hs2] at heq
              cases heq
              have m1 := mergeStepH_frame _ ih _ _ _ _ hs1
              have m2 := mergeStepH_frame _ ih _ _ _ _ hs2
              have hl0 : (h ++ [HNode.hObj []]).length = h.length + 1 := by
                simp
              constructor
              · omega
              · intro b hb
                have hbacc : b ≠ h.length := by omega
                have e2 : h2.get? b = h1.get? b :=
                  m2.2 b (by omega) hbacc
                have e1 : h1.get? b = (h ++ [HNode.hObj []]).get? b :=
                  m1.2 b (by omega) hbacc
                rw [e2, e1, List.get?_append hb]

theorem deepMergeH_frame (fuel : Nat) (h : Heap) (objects : List Nat)
    (h2 : Heap) (n : Nat) (heq : deepMergeH fuel h objects = .ok (h2, n)) :
    ∀ b < h.length, h2.get? b = h.get? b := by
  have main : ∀ (l : List Nat) (hh h3 : Heap),
      l.foldlM (fun hh obj =>
        mergeStepH (deepMergePairH fuel) hh h.length obj) hh = .ok h3 →
      hh.length ≤ h3.length ∧
        ∀ b < hh.length, b ≠ h.length → h3.get? b = hh.get? b := by
    intro l
    induction l with
    | nil =>
        intro hh h3 hfold
        simp only [List.foldlM_nil] at hfold
        cases hfold
        exact ⟨le_rfl, fun b _ _ => rfl⟩
    | cons o rest ih =>
        intro hh h3 hfold
        simp only [List.foldlM_cons] at hfold
        cases hs : mergeStepH (deepMergePairH fuel) hh h.length o with
        | error e =>
            rw [hs] at hfold
            cases hfold
        | ok hh1 =>
            rw [hs] at hfold
            have m1 := mergeStepH_frame _ (deepMergePairH_frame fuel)
              hh h.length o hh1 hs
            exact frame_chain hh hh1 h3 h.length m1 (ih hh1 h3 hfold)
  simp only [deepMergeH] at heq
  cases hfold : (objects.foldlM (fun hh obj =>
      mergeStepH (deepMergePairH fuel) hh h.length obj)
    (h ++ [HNode.hObj []])) with
  | error e => rw [hfold] at heq; cases heq
  | ok h3 =>
      rw [hfold] at heq
      cases heq
      intro b hb
      have hb0 : b < (h ++ [HNode.hObj []]).length := by
        rw [List.length_append]
        simp
        omega
      have := (main objects (h ++ [HNode.hObj []]) h2 hfold).2 b hb0
        (by omega)
      rw [this, List.get?_append hb]

/-- C8 (amended): the documented path-setter mutates in place and
returns its argument, but only on paths whose traversal never steps
into a null (the counterexample shows the throw); the other two
functions never mutate their arguments.  In the heap model: set at a
separator-free key updates the object node at the given address in
place and returns that very address, and every successful set returns
the address it was given; shuffle returns a freshly allocated address
(distinct from its argument) and leaves every pre-existing node
unchanged; a successful deepMerge leaves every pre-existing node
unchanged. -/
theorem no_unexpected_mutation
    (h : Heap) (root : Nat) (fields : List (JStr × HVal)) (k : JStr)
    (v : HVal) (hroot : h.get? root = some (.hObj fields))
    (hk : ∀ c ∈ k, c ≠ '.')
    (p : JStr) (h2 : Heap) (r2 : Nat) (hset : setH h root p v = .ok (h2, r2))
    (a : Nat) (elems : List HVal) (ha : h.get? a = some (.hArr elems))
    (rand : Nat → Nat)
    (fuel : Nat) (objects : List Nat) (h3 : Heap) (n3 : Nat)
    (hmerge : deepMergeH fuel h objects = .ok (h3, n3)) :
    setH h root k v = .ok (h.set root (.hObj (hfSet fields k v)), root) ∧
    r2 = root ∧
    ((shuffleH h a rand).2 = h.length ∧ a ≠ (shuffleH h a rand).2 ∧
      ∀ b < h.length, (shuffleH h a rand).1.get? b = h.get? b) ∧
    (∀ b < h.length, h3.get? b = h.get? b) :=
  ⟨setH_single h root k v fields hroot hk,
   setH_same_ref h root p v h2 r2 hset,
   shuffleH_fresh h a rand elems ha,
   deepMergeH_frame fuel h objects h3 n3 hmerge⟩

theorem no_unexpected_mutation_witness :
    setH [HNode.hObj [], HNode.hArr [], HNode.hObj []] 0 ['a']
        (HVal.hNum 1) =
      .ok ([HNode.hObj [], HNode.hArr [], HNode.hObj []].set 0
        (.hObj (hfSet [] ['a'] (HVal.hNum 1))), 0) ∧
    (0 : Nat) = 0 ∧
    ((shuffleH [HNode.hObj [], HNode.hArr [], HNode.hObj []] 1
        (fun _ => 0)).2 =
      [HNode.hObj [], HNode.hArr [], HNode.hObj []].length ∧
     1 ≠ (shuffleH [HNode.hObj [], HNode.hArr [], HNode.hObj []] 1
        (fun _ => 0)).2 ∧
     ∀ b < [HNode.hObj [], HNode.hArr [], HNode.hObj []].length,
       (shuffleH [HNode.hObj [], HNode.hArr [], HNode.hObj []] 1
          (fun _ => 0)).1.get? b =
         [HNode.hObj [], HNode.hArr [], HNode.hObj []].get? b) ∧
    (∀ b < [HNode.hObj [], HNode.hArr [], HNode.hObj []].length,
      [HNode.hObj [], HNode.hArr [], HNode.hObj [],
        HNode.hObj []].get? b =
        [HNode.hObj [], HNode.hArr [], HNode.hObj []].get? b) :=
  no_unexpected_mutation
    [HNode.hObj [], HNode.hArr [], HNode.hObj []] 0 [] ['a']
    (HVal.hNum 1) rfl (by decide)
    ['a'] [HNode.hObj [(['a'], HVal.hNum 1)], HNode.hArr [], HNode.hObj []]
    0 rfl
    1 [] rfl (fun _ => 0)
    1 [0, 2] [HNode.hObj [], HNode.hArr [], HNode.hObj [], HNode.hObj []]
    3 rfl
